import Mathlib

/-!
Verification development for the Connect-Four engine of this repository.

The definitions below are a shallow embedding of `241 project/bot_hard.c`
(bitboard position model, negamax with alpha-beta and a transposition
table, iterative deepening driver) and of `src/rules.c` (the naive
per-cell win scanner used as a reference).

Modelling conventions:
* `unsigned long long` is modelled as `Nat`; the only 64-bit overflow in
  the relevant code is inside `splitmix64`, where we reduce `% 2^64`
  explicitly.  All other bit operations (`&`, `|`, `^`, shifts, and the
  single addition in `make_move`) stay below `2^64` on the values that
  occur.
* C `int` values that can be negative (scores, table fields) are `Int`;
  loop counters and column indices, which are always non-negative, are
  `Nat`.
* the board `char board[ROWS][COLS]` is a total function
  `Nat → Nat → Char`, read only at `r < 6`, `c < 7`.
* wall-clock time is abstracted by an oracle `Nat → Bool`: the n-th call
  of `timed_out` in a run returns the oracle's value at n.  Theorems
  about "regardless of the time budget" quantify over the oracle.
* the C `while` loops whose termination is by a bounded numeric measure
  (the aspiration-window widening loop, the `count_line` scan) are given
  an explicit fuel that dominates that measure.
-/

namespace C4Bot

/-- Board of the surrounding program: `board[r][c]`, row 0 is the top row. -/
def Board : Type := Nat → Nat → Char

/-- WIN_SCORE constant of bot_hard.c. -/
def WIN_SCORE : Int := 1000000

/-- bottom_mask of bot_hard.c: bit of the lowest cell of a column. -/
def bottom_mask (col : Nat) : Nat := 1 <<< (col * 7)

/-- top_mask of bot_hard.c: bit index `col*7 + 5`, the top playable cell. -/
def top_mask (col : Nat) : Nat := 1 <<< (col * 7 + 5)

/-- Position of bot_hard.c: stones of the side to move, and all stones. -/
structure Position where
  position : Nat
  mask : Nat
deriving DecidableEq

/-- has_won_bb of bot_hard.c: shift-and-AND detection of four in a line. -/
def has_won_bb (bb : Nat) : Bool :=
  let m1 := bb &&& (bb >>> 1)
  if m1 &&& (m1 >>> 2) ≠ 0 then true
  else
    let m2 := bb &&& (bb >>> 7)
    if m2 &&& (m2 >>> 14) ≠ 0 then true
    else
      let m3 := bb &&& (bb >>> 6)
      if m3 &&& (m3 >>> 12) ≠ 0 then true
      else
        let m4 := bb &&& (bb >>> 8)
        if m4 &&& (m4 >>> 16) ≠ 0 then true
        else false

/-- opponent_bb of bot_hard.c. -/
def opponent_bb (p : Position) : Nat := p.mask ^^^ p.position

/-- can_play of bot_hard.c. -/
def can_play (p : Position) (col : Nat) : Bool :=
  p.mask &&& top_mask col = 0

/-- make_move of bot_hard.c (gamesolver style). -/
def make_move (p : Position) (col : Nat) : Position :=
  { position := p.position ^^^ p.mask
    mask := p.mask ||| (p.mask + bottom_mask col) }

/-- board_full_pos of bot_hard.c. -/
def board_full_pos (p : Position) : Bool :=
  (List.range 7).all fun c => ! can_play p c

/-- Flip the side to move, as done inline by `opp_view.position ^= opp_view.mask`. -/
def flip_pov (p : Position) : Position :=
  { position := p.position ^^^ p.mask, mask := p.mask }

/-- count_immediate_wins of bot_hard.c. -/
def count_immediate_wins (p : Position) : Nat :=
  ((List.range 7).filter fun c =>
    can_play p c && has_won_bb (opponent_bb (make_move p c))).length

/-! ### Zobrist hashing -/

/-- Modulus of 64-bit unsigned arithmetic. -/
def U64 : Nat := 2 ^ 64

/-- State update of splitmix64: `*x += 0x9e3779b97f4a7c15`. -/
def splitmix_step (x : Nat) : Nat := (x + 0x9e3779b97f4a7c15) % U64

/-- Output mix of splitmix64 applied to the updated state. -/
def splitmix_out (z0 : Nat) : Nat :=
  let z1 := ((z0 ^^^ (z0 >>> 30)) * 0xbf58476d1ce4e5b9) % U64
  let z2 := ((z1 ^^^ (z1 >>> 27)) * 0x94d049bb133111eb) % U64
  z2 ^^^ (z2 >>> 31)

/-- Seed of init_zobrist. -/
def zobrist_seed : Nat := 88172645463325252

/-- splitmix64 internal state after `n` calls, starting from the seed. -/
def smState : Nat → Nat
  | 0 => zobrist_seed
  | n + 1 => splitmix_step (smState n)

/-- Value returned by the `n`-th splitmix64 call (0-indexed). -/
def smValue (n : Nat) : Nat := splitmix_out (smState (n + 1))

/-- zobrist[c][r][i] as filled by init_zobrist (c outer, r inner, i last). -/
def zobrist (c r i : Nat) : Nat := smValue ((c * 6 + r) * 2 + i)

/-- Cell enumeration used by the `for c / for r` loops (column-major). -/
def cellsCR : List (Nat × Nat) :=
  (List.range 7).flatMap fun c => (List.range 6).map fun r => (c, r)

/-- tt_key of bot_hard.c: Zobrist hash over to-move vs opponent stones. -/
def tt_key (p : Position) : Nat :=
  let player := p.position
  let opp := p.mask ^^^ p.position
  cellsCR.foldl
    (fun key cr =>
      let bit := 1 <<< (cr.1 * 7 + cr.2)
      if player &&& bit ≠ 0 then key ^^^ zobrist cr.1 cr.2 0
      else if opp &&& bit ≠ 0 then key ^^^ zobrist cr.1 cr.2 1
      else key)
    0

/-- TT_MASK of bot_hard.c (`TT_BITS = 22`). -/
def TT_MASK : Nat := 2 ^ 22 - 1

/-- tt_idx_u64 of bot_hard.c. -/
def tt_idx (k : Nat) : Nat := k &&& TT_MASK

/-- Transposition-table entry of bot_hard.c. -/
structure TTEntry where
  key : Nat
  depth : Int
  value : Int
  flag : Int
  move : Int
  gen : Nat
deriving DecidableEq

/-- Point update of a table modelled as a function. -/
def upd {α : Type} (f : Nat → α) (i : Nat) (v : α) : Nat → α :=
  fun j => if j = i then v else f j

/-- Mutable search state of bot_hard.c (transposition table, killers,
history, node counter, timeout flag, and the clock-call counter of the
time oracle). -/
structure SearchState where
  ttable : Nat → TTEntry
  generation : Nat
  killer0 : Nat → Int
  killer1 : Nat → Int
  history : Nat → Int
  node_counter : Nat
  timeout_flag : Bool
  clock_calls : Nat

/-- One call of timed_out, driven by the time oracle. -/
def checkTime (oracle : Nat → Bool) (st : SearchState) : Bool × SearchState :=
  (oracle st.clock_calls, { st with clock_calls := st.clock_calls + 1 })

/-- ORDER of bot_hard.c: center-first static move order. -/
def ORDER : List Nat := [3, 2, 4, 1, 5, 0, 6]

/-- gen_moves of bot_hard.c. -/
def gen_moves (p : Position) : List Nat :=
  ORDER.filter fun c => can_play p c

/-! ### Heuristic evaluation -/

/-- cell_at of bot_hard.c: +1 mover, -1 opponent, 0 empty. -/
def cell_at (p : Position) (r c : Nat) : Int :=
  let bit := 1 <<< (c * 7 + r)
  if p.position &&& bit ≠ 0 then 1
  else if opponent_bb p &&& bit ≠ 0 then -1
  else 0

/-- Weights W of eval_window.  The C array has four entries `{0,2,12,60}`;
index 4 (a window fully owned by one side) is an out-of-bounds read in C
and is modelled as 0 here; theorems that depend on the evaluator exclude
that case by hypothesis. -/
def Wlist : List Int := [0, 2, 12, 60]

/-- The (mover, opponent) stone counts of one 4-cell window. -/
def window_counts (p : Position) (r c : Nat) (dr dc : Int) : Nat × Nat :=
  (List.range 4).foldl
    (fun pcoc i =>
      let rr := ((r : Int) + i * dr).toNat
      let cc := ((c : Int) + i * dc).toNat
      let v := cell_at p rr cc
      if v = 1 then (pcoc.1 + 1, pcoc.2)
      else if v = -1 then (pcoc.1, pcoc.2 + 1)
      else pcoc)
    (0, 0)

/-- eval_window of bot_hard.c. -/
def eval_window (p : Position) (r c : Nat) (dr dc : Int) : Int :=
  let pc := (window_counts p r c dr dc).1
  let oc := (window_counts p r c dr dc).2
  if pc ≠ 0 ∧ oc ≠ 0 then 0
  else if pc ≠ 0 then Wlist.getD pc 0
  else if oc ≠ 0 then - Wlist.getD oc 0
  else 0

/-- Horizontal windows scanned by evaluate_position_internal. -/
def winH : List (Nat × Nat) :=
  (List.range 6).flatMap fun r => (List.range 4).map fun c => (r, c)

/-- Vertical windows. -/
def winV : List (Nat × Nat) :=
  (List.range 3).flatMap fun r => (List.range 7).map fun c => (r, c)

/-- Down-right diagonal windows. -/
def winD1 : List (Nat × Nat) :=
  (List.range 3).flatMap fun r => (List.range 4).map fun c => (r, c)

/-- Down-left diagonal windows. -/
def winD2 : List (Nat × Nat) :=
  (List.range 3).flatMap fun r => [3, 4, 5, 6].map fun c => (r, c)

/-- evaluate_position_internal of bot_hard.c. -/
def evaluate_position_internal (p : Position) (include_threats : Bool) : Int :=
  let center := ((List.range 6).map fun r => cell_at p r 3 * 4).sum
  let h := (winH.map fun rc => eval_window p rc.1 rc.2 0 1).sum
  let v := (winV.map fun rc => eval_window p rc.1 rc.2 1 0).sum
  let d1 := (winD1.map fun rc => eval_window p rc.1 rc.2 1 1).sum
  let d2 := (winD2.map fun rc => eval_window p rc.1 rc.2 1 (-1)).sum
  let score := center + h + v + d1 + d2
  if include_threats then
    let threats_me := count_immediate_wins p
    let threats_opp := count_immediate_wins (flip_pov p)
    let score := score + ((threats_me : Int) - (threats_opp : Int)) * 200
    let score := if threats_me ≥ 2 then score + 5000 else score
    if threats_opp ≥ 2 then score - 5000 else score
  else score

/-! ### Opening book -/

/-- Cell enumeration of the row-major `for r / for c` loops. -/
def cellsRC : List (Nat × Nat) :=
  (List.range 6).flatMap fun r => (List.range 7).map fun c => (r, c)

/-- Stone counting loop of opening_book_move: (stones, my_stones, opp_stones). -/
def stonesTriple (b : Board) (bot : Char) : Nat × Nat × Nat :=
  cellsRC.foldl
    (fun acc rc =>
      let cell := b rc.1 rc.2
      if cell ≠ '.' then
        (acc.1 + 1,
         (if cell = bot then acc.2.1 + 1 else acc.2.1),
         (if cell = bot then acc.2.2 else acc.2.2 + 1))
      else acc)
    (0, 0, 0)

/-- The `goto found_opp` search: first occupied column, scanning columns
left to right and each column bottom-up. -/
def firstOccupiedCol (b : Board) : Option Nat :=
  (((List.range 7).flatMap fun c => (List.range 6).map fun i => (c, 5 - i)).find?
    fun cr => b cr.2 cr.1 ≠ '.').map fun cr => cr.1

/-- opening_book_move of bot_hard.c (returns a 1-based column or 0). -/
def opening_book_move (b : Board) (bot : Char) : Nat :=
  let s := stonesTriple b bot
  let stones := s.1
  let my := s.2.1
  let opp := s.2.2
  if stones > 4 then 0
  else if stones = 0 then (if b 5 3 = '.' then 4 else 0)
  else if stones = 1 ∧ my = 0 ∧ opp = 1 then
    match firstOccupiedCol b with
    | none => 0
    | some opp_col =>
      if opp_col ≠ 3 ∧ b 5 3 = '.' then 4
      else if opp_col = 3 then
        (if b 5 2 = '.' then 3 else if b 5 4 = '.' then 5 else 0)
      else 0
  else if stones = 2 ∧ my = 1 ∧ opp = 1 then
    (if b 5 3 = bot then
      (if b 5 2 = '.' then 3 else if b 5 4 = '.' then 5 else 0)
     else 0)
  else 0

/-! ### Building the root position from the external board -/

/-- One iteration of the board-loading loop of getBotMoveHard. -/
def loadStep (b : Board) (bot : Char) (p : Position) (cr : Nat × Nat) : Position :=
  let cell := b cr.2 cr.1
  if cell = '.' then p
  else
    let bit := 1 <<< (cr.1 * 7 + (5 - cr.2))
    { position := if cell = bot then p.position ||| bit else p.position
      mask := p.mask ||| bit }

/-- Board-loading loop of getBotMoveHard (lines building position/mask). -/
def loadPos (b : Board) (bot : Char) : Position :=
  cellsCR.foldl (loadStep b bot) ⟨0, 0⟩

/-- Number of empty cells of the external board. -/
def countEmpties (b : Board) : Nat :=
  (cellsRC.filter fun rc => b rc.1 rc.2 = '.').length

/-! ### Negamax -/

/-- Terminal score for a win detected at the given ply. -/
def terminal_win_score (ply : Nat) : Int := WIN_SCORE - (ply : Int)

/-- Terminal score for a loss detected at the given ply. -/
def terminal_loss_score (ply : Nat) : Int := - WIN_SCORE + (ply : Int)

/-- Leaf evaluation of negamax (depth cutoff or full board): quick
tactical check, then the static evaluator. -/
def negaLeaf (p : Position) (ply : Nat) : Int :=
  let my_wins := count_immediate_wins p
  if my_wins > 0 then terminal_win_score ply
  else
    let opp_wins := count_immediate_wins (flip_pov p)
    if opp_wins > 0 then terminal_loss_score ply
    else evaluate_position_internal p false

/-- Shared prefix of a negamax call: timeout flag, node counting with the
periodic time check, the terminal-loss test and the leaf case.  Returns
`some v` when the call ends here. -/
def negaEarly (oracle : Nat → Bool) (depth_rem : Nat) (p : Position)
    (max_depth : Nat) (st : SearchState) : Option Int × SearchState :=
  if st.timeout_flag then (some 0, st)
  else
    let st := { st with node_counter := st.node_counter + 1 }
    let halted :=
      if st.node_counter &&& 0x7F = 0 then
        let r := checkTime oracle st
        if r.1 then (true, { r.2 with timeout_flag := true }) else (false, r.2)
      else (false, st)
    if halted.1 then (some 0, halted.2)
    else
      let st := halted.2
      if has_won_bb (opponent_bb p) then
        (some (terminal_loss_score (max_depth - depth_rem)), st)
      else if depth_rem = 0 ∨ board_full_pos p then
        (some (negaLeaf p (max_depth - depth_rem)), st)
      else (none, st)

/-- Swap-to-front step used for the stored TT move (a swap, not a rotate). -/
def swapToFront (l : List Nat) (mv : Int) : List Nat :=
  match l.findIdx? (fun c => ((c : Int) == mv)) with
  | none => l
  | some i => (l.set 0 (l.getD i 0)).set i (l.getD 0 0)

/-- Move-ordering score of one move (bot_hard.c lines 452-487). -/
def moveScore (p : Position) (st : SearchState) (e : TTEntry) (key : Nat)
    (ply : Nat) (opp_wcols : List Nat) (c : Nat) : Int :=
  let s0 : Int := 6 - (if c > 3 then (c : Int) - 3 else 3 - (c : Int))
  let child := make_move p c
  let s1 := if has_won_bb (opponent_bb child) then s0 + 12000 else s0
  let s2 := if c ∈ opp_wcols then s1 + 8000 else s1
  let opp_view_child := flip_pov child
  let opp_can_win := (List.range 7).any fun oc =>
    can_play opp_view_child oc &&
      has_won_bb (opponent_bb (make_move opp_view_child oc))
  let s3 := if ! opp_can_win then s2 + 200 else s2
  let s4 := s3 + Int.tdiv (evaluate_position_internal child false) 32
  let s5 := s4 + Int.tdiv (st.history c) 8
  let s6 :=
    if st.killer0 ply = (c : Int) then s5 + 2000
    else if st.killer1 ply = (c : Int) then s5 + 1000
    else s5
  if e.key = key ∧ e.move = (c : Int) then s6 + 1000 else s6

/-- Index of the first maximum score (strict comparisons, as in the C
selection sort's inner loop). -/
def firstMaxIdx (l : List (Nat × Int)) : Nat :=
  (l.foldl
    (fun acc x =>
      let idx := acc.1
      let best := acc.2.1
      let bestScore := acc.2.2
      if x.2 > bestScore then (idx + 1, idx, x.2) else (idx + 1, best, bestScore))
    (0, 0, ((-2147483648 : Int)))).2.1

/-- Selection sort by descending score with C swap semantics. -/
def selSort : Nat → List (Nat × Int) → List (Nat × Int)
  | 0, l => l
  | _, [] => []
  | fuel + 1, x :: xs =>
    let i := firstMaxIdx (x :: xs)
    if i = 0 then x :: selSort fuel xs
    else (x :: xs).getD i x :: selSort fuel (xs.set (i - 1) x)

/-- Store step of negamax (lines 543-553): the entry is overwritten
unless a same-generation deeper entry sits in the slot, but the bound
flag is always rewritten. -/
def ttStore (e : TTEntry) (key : Nat) (g : Nat) (depth_rem : Nat)
    (best_val : Int) (best_move : Int) (alpha0 beta0 : Int) : TTEntry :=
  let e1 :=
    if ¬(e.gen = g ∧ e.key = key ∧ e.depth > (depth_rem : Int)) then
      { e with key := key, depth := (depth_rem : Int), value := best_val,
               move := best_move, gen := g }
    else e
  { e1 with flag := if best_val ≤ alpha0 then 2 else if best_val ≥ beta0 then 1 else 0 }

/-- Result of the per-node move loop. -/
structure LoopRes where
  aborted : Bool
  best_val : Int
  best_move : Int
  st : SearchState

/-- Move loop of negamax.  `recur` is negamax at one less remaining
depth; `items` carries `(index, (move, score))` of the sorted moves. -/
def negaLoop (recur : Position → Int → Int → SearchState → Int × SearchState)
    (p : Position) (depth_rem : Nat) (ply : Nat) (beta : Int) :
    List (Nat × Nat × Int) → Int → Int → Int → SearchState → LoopRes
  | [], _, best_val, best_move, st => ⟨false, best_val, best_move, st⟩
  | (i, col, sc) :: rest, alpha, best_val, best_move, st =>
    let child := make_move p col
    if depth_rem ≤ 2 ∧ i ≥ 3 ∧ sc + 200 < alpha then
      negaLoop recur p depth_rem ply beta rest alpha best_val best_move st
    else
      let r := recur child (- beta) (- alpha) st
      let score := - r.1
      let st1 := r.2
      if st1.timeout_flag then ⟨true, best_val, best_move, st1⟩
      else
        let bv := if score > best_val then score else best_val
        let bm := if score > best_val then (col : Int) else best_move
        let alpha1 := if score > alpha then score else alpha
        if alpha1 ≥ beta then
          let bonus : Int := min ((depth_rem : Int) * (depth_rem : Int)) 256
          let st2 := { st1 with history := upd st1.history col (st1.history col + bonus) }
          let st3 :=
            if st2.killer0 ply ≠ (col : Int) then
              { st2 with killer1 := upd st2.killer1 ply (st2.killer0 ply),
                         killer0 := upd st2.killer0 ply (col : Int) }
            else st2
          ⟨false, bv, bm, st3⟩
        else negaLoop recur p depth_rem ply beta rest alpha1 bv bm st1

/-- Body of a non-leaf negamax node: TT probe, move ordering, the move
loop and the store step. -/
def negaNode (recur : Position → Int → Int → SearchState → Int × SearchState)
    (p : Position) (depth_rem : Nat) (max_depth : Nat) (alpha beta : Int)
    (st : SearchState) : Int × SearchState :=
  let key := tt_key p
  let idx := tt_idx key
  let e := st.ttable idx
  let hit := e.gen = st.generation ∧ e.key = key ∧ e.depth ≥ (depth_rem : Int)
  let ab : Int × Int :=
    if hit then
      if e.flag = 1 ∧ e.value > alpha then (e.value, beta)
      else if e.flag = 2 ∧ e.value < beta then (alpha, e.value)
      else (alpha, beta)
    else (alpha, beta)
  if hit ∧ e.flag = 0 then (e.value, st)
  else if hit ∧ ab.1 ≥ ab.2 then (e.value, st)
  else
    let alpha0 := ab.1
    let beta0 := ab.2
    let moves0 := gen_moves p
    if moves0 = [] then (0, st)
    else
      let ply := min (max_depth - depth_rem) 63
      let moves1 :=
        if e.gen = st.generation ∧ e.key = key ∧ e.depth > 0 ∧
            e.move ≥ 0 ∧ e.move < 7 then
          swapToFront moves0 e.move
        else moves0
      let opp_view := flip_pov p
      let opp_wcols := (List.range 7).filter fun oc =>
        can_play opp_view oc && has_won_bb (opponent_bb (make_move opp_view oc))
      let scored := moves1.map fun c => (c, moveScore p st e key ply opp_wcols c)
      let sorted := selSort 7 scored
      let items := sorted.enum.map fun ix => (ix.1, ix.2.1, ix.2.2)
      let bm0 : Int := ((sorted.headD (0, 0)).1 : Int)
      let res := negaLoop recur p depth_rem ply beta0 items alpha0 (- WIN_SCORE) bm0 st
      if res.aborted then (0, res.st)
      else
        let stL := res.st
        let eNow := stL.ttable idx
        let eNew := ttStore eNow key stL.generation depth_rem res.best_val res.best_move alpha0 beta0
        (res.best_val, { stL with ttable := upd stL.ttable idx eNew })

/-- negamax of bot_hard.c, structurally recursive on the remaining depth. -/
def negamax (oracle : Nat → Bool) :
    Nat → Position → Nat → Int → Int → SearchState → Int × SearchState
  | 0, p, max_depth, _, _, st =>
    (match negaEarly oracle 0 p max_depth st with
     | (some v, st1) => (v, st1)
     | (none, st1) => (0, st1))
  | d + 1, p, max_depth, alpha, beta, st =>
    (match negaEarly oracle (d + 1) p max_depth st with
     | (some v, st1) => (v, st1)
     | (none, st1) =>
       negaNode (fun q a b s => negamax oracle d q max_depth a b s)
         p (d + 1) max_depth alpha beta st1)

/-! ### Iterative deepening driver -/

/-- Result of the aspiration-window loop around one root move. -/
structure AspRes where
  timeout : Bool
  score : Int
  st : SearchState

/-- Aspiration-window widening loop (bot_hard.c lines 685-710).  The C
loop terminates because each re-search moves `alpha` down or `beta` up
by 256 inside the clamped range `[-WIN_SCORE, WIN_SCORE]`; the fuel
passed by `rootMoves` dominates that measure. -/
def aspirate (oracle : Nat → Bool) (child : Position) (depth : Nat) :
    Nat → Int → Int → SearchState → AspRes
  | 0, _, _, st => ⟨false, 0, st⟩
  | fuel + 1, alpha, beta, st =>
    let alpha := if alpha < - WIN_SCORE then - WIN_SCORE else alpha
    let beta := if beta > WIN_SCORE then WIN_SCORE else beta
    let r := negamax oracle (depth - 1) child depth (- beta) (- alpha) st
    let score := - r.1
    let st1 := r.2
    if st1.timeout_flag then ⟨true, score, st1⟩
    else if score ≤ alpha ∧ alpha > - WIN_SCORE ∧ depth ≥ 3 then
      aspirate oracle child depth fuel (alpha - 256) beta st1
    else if score ≥ beta ∧ beta < WIN_SCORE ∧ depth ≥ 3 then
      aspirate oracle child depth fuel alpha (beta + 256) st1
    else ⟨false, score, st1⟩

/-- Result of the root move loop of one depth iteration. -/
structure RootRes where
  timeout : Bool
  local_best : Nat
  best_val : Int
  st : SearchState

/-- Root move loop of one depth iteration (bot_hard.c lines 669-718).
`local_best` is carried as the 1-based column, as in the C code. -/
def rootMoves (oracle : Nat → Bool) (pos : Position) (depth : Nat)
    (last_score : Int) :
    List Nat → Nat → Int → SearchState → RootRes
  | [], lb, bv, st => ⟨false, lb, bv, st⟩
  | col :: rest, lb, bv, st =>
    let child := make_move pos col
    let aw : Int × Int :=
      if depth ≥ 3 then (last_score - 64, last_score + 64)
      else (- WIN_SCORE, WIN_SCORE)
    let ar := aspirate oracle child depth 20000 aw.1 aw.2 st
    if ar.timeout then ⟨true, lb, bv, ar.st⟩
    else
      let bv1 := if ar.score > bv then ar.score else bv
      let lb1 := if ar.score > bv then col + 1 else lb
      rootMoves oracle pos depth last_score rest lb1 bv1 ar.st

/-- Result of the whole iterative-deepening loop. -/
structure IDResult where
  best_move : Nat
  last_completed : Nat
  last_score : Int
  st : SearchState

/-- Root move list of one depth iteration: legal moves with the stored
root TT move swapped to the front when its slot entry is usable. -/
def idDepthMoves (pos : Position) (root_key root_idx : Nat) (st : SearchState) :
    List Nat :=
  let moves0 := gen_moves pos
  let root_e := st.ttable root_idx
  if root_e.gen = st.generation ∧ root_e.key = root_key ∧ root_e.depth > 0 ∧
      root_e.move ≥ 0 ∧ root_e.move < 7 then
    swapToFront moves0 root_e.move
  else moves0

/-- Iterative-deepening loop of getBotMoveHard (lines 648-726),
structurally recursive on the number of remaining depth iterations. -/
def idLoop (oracle : Nat → Bool) (pos : Position) (root_key root_idx : Nat) :
    Nat → Nat → Nat → Nat → Int → SearchState → IDResult
  | 0, _, bm, lcd, ls, st => ⟨bm, lcd, ls, st⟩
  | rem + 1, depth, bm, lcd, ls, st =>
    let st := { st with timeout_flag := false }
    let moves := idDepthMoves pos root_key root_idx st
    if moves = [] then ⟨bm, lcd, ls, st⟩
    else
      let rr := rootMoves oracle pos depth ls moves bm (- WIN_SCORE) st
      if rr.timeout then ⟨bm, lcd, ls, rr.st⟩
      else
        let t2 := checkTime oracle rr.st
        if t2.1 then ⟨rr.local_best, depth, rr.best_val, t2.2⟩
        else idLoop oracle pos root_key root_idx rem (depth + 1) rr.local_best depth rr.best_val t2.2

/-- Process state at the first getBotMoveHard call: freshly initialised
table (init_tt), cleared killers and history, and the generation bumped
from its initial 1 to 2 by the `tt_generation++` at the top of the call. -/
def initState : SearchState :=
  { ttable := fun _ => ⟨0, -1, 0, 0, -1, 0⟩
    generation := 2
    killer0 := fun _ => -1
    killer1 := fun _ => -1
    history := fun _ => 0
    node_counter := 0
    timeout_flag := false
    clock_calls := 0 }

/-- Iterative-deepening phase of getBotMoveHard, from the computed root
position: default best move, center-full fallback, and the deepening
loop up to the number of empty cells. -/
def runID (b : Board) (bot : Char) (oracle : Nat → Bool) : IDResult :=
  let pos := loadPos b bot
  let depth_cap := countEmpties b
  let root_key := tt_key pos
  let root_idx := tt_idx root_key
  let bm1 :=
    if ! can_play pos 3 then
      match (List.range 7).find? (fun c => can_play pos c) with
      | some c => c + 1
      | none => 4
    else 4
  idLoop oracle pos root_key root_idx depth_cap 1 bm1 0 0 initState

/-- getBotMoveHard of bot_hard.c.  The second component of the result is
the caller's board array after the call; the source never writes to it,
so every exit returns the input board. -/
def getBotMoveHardImpl (b : Board) (bot opponent : Char) (oracle : Nat → Bool) :
    Nat × Board :=
  let pos := loadPos b bot
  let ob := opening_book_move b bot
  if 1 ≤ ob ∧ ob ≤ 7 ∧ b 0 (ob - 1) = '.' then (ob, b)
  else
    match (List.range 7).find?
        (fun c => can_play pos c && has_won_bb (opponent_bb (make_move pos c))) with
    | some c => (c + 1, b)
    | none =>
      match (List.range 7).find?
          (fun c => can_play pos c &&
            has_won_bb (opponent_bb (make_move (flip_pov pos) c))) with
      | some c => (c + 1, b)
      | none =>
        let r := runID b bot oracle
        let bm := r.best_move
        let final :=
          if bm < 1 ∨ bm > 7 ∨ b 0 (bm - 1) ≠ '.' then
            match (List.range 7).find? (fun c => can_play pos c) with
            | some c => c + 1
            | none => bm
          else bm
        (final, b)

/-- Column returned by getBotMoveHard (1-based). -/
def getBotMoveHard (b : Board) (bot opponent : Char) (oracle : Nat → Bool) : Nat :=
  (getBotMoveHardImpl b bot opponent oracle).1

/-! ### The reference scanner of src/rules.c -/

/-- Integer board of rules.c (`Player`: EMPTY = 0, A = 1, B = 2). -/
def IBoard : Type := Int → Int → Int

/-- in_bounds of rules.c. -/
def in_bounds (r c : Int) : Bool :=
  0 ≤ r ∧ r < 6 ∧ 0 ≤ c ∧ c < 7

/-- count_line of rules.c.  The while loop moves one cell per step in a
fixed nonzero direction, so it runs at most 7 steps from an in-bounds
start; fuel 13 strictly dominates that. -/
def count_line (bd : IBoard) (p : Int) : Nat → Int → Int → Int → Int → Nat
  | 0, _, _, _, _ => 0
  | fuel + 1, r, c, dr, dc =>
    if in_bounds r c ∧ bd r c = p then
      count_line bd p fuel (r + dr) (c + dc) dr dc + 1
    else 0

/-- Direction table of check_win. -/
def winDirs : List (Int × Int) := [(0, 1), (1, 0), (1, 1), (1, -1)]

/-- check_win of rules.c. -/
def check_win (bd : IBoard) (p : Int) : Bool :=
  (List.range 6).any fun r =>
    (List.range 7).any fun c =>
      bd (r : Int) (c : Int) == p &&
        winDirs.any fun d =>
          let f := count_line bd p 13 (r : Int) (c : Int) d.1 d.2
          let bk := count_line bd p 13 (r : Int) (c : Int) (- d.1) (- d.2) - 1
          decide (f + bk ≥ 4)

/-- Board carrying exactly the stones of one bitboard (owner mark 1),
with bit `c*7 + r` at cell (row r from the bottom, column c). -/
def boardOfBB (bb : Nat) : IBoard :=
  fun r c =>
    if 0 ≤ r ∧ r < 6 ∧ 0 ≤ c ∧ c < 7 ∧ Nat.testBit bb (c.toNat * 7 + r.toNat) then 1
    else 0

/-! ### Concrete instances used by witnesses and counterexamples -/

/-- Time oracle that never reports expiry (an unbounded budget run). -/
def neverTO : Nat → Bool := fun _ => false

/-- Completely empty board. -/
def emptyB : Board := fun _ _ => '.'

/-- Rows of a near-full test board: only column 0 is open (two empty
cells); X to move has two stones stacked at rows 2-3 of column 0, so
dropping into column 0 creates an immediate vertical-win threat.  No
four-in-a-row exists anywhere and neither side has an immediate win. -/
def rowsB0 : List String :=
  [".XOXOXO", ".XOXOXO", "XOXOXOX", "XOXOXOX", "OXOXOXO", "OXOXOXO"]

/-- The near-full test board as a function. -/
def bB0 : Board := fun r c => ((rowsB0.getD r "").toList.getD c '.')

/-- Root position of the near-full test board with X to move. -/
def posB0 : Position := loadPos bB0 'X'

/-- Search state whose slot 0 carries a same-generation depth-5 entry
with bound flag 1 (lower bound) and value -1000000 for the empty
position (whose Zobrist key is 0). -/
def seededC5 : SearchState :=
  { initState with ttable := upd initState.ttable 0 ⟨0, 5, -1000000, 1, 0, 2⟩ }

/-- Search state whose slot 0 carries a same-generation depth-5 entry
with bound flag 1 (lower bound) and value 500000 for the empty position,
so that probing raises alpha from -WIN_SCORE to 500000. -/
def seededC4 : SearchState :=
  { initState with ttable := upd initState.ttable 0 ⟨0, 5, 500000, 1, 0, 2⟩ }

/-- Move list of the first depth iteration of `runID` on the near-full
test board (column 0 only; no usable TT entry yet, so no reordering). -/
def movesB0 : List Nat :=
  idDepthMoves posB0 (tt_key posB0) (tt_idx (tt_key posB0))
    { initState with timeout_flag := false }

/-- The actual depth-1 root-move iteration of `runID bB0 'X' neverTO`
(initial best move 1, because the centre column is full and column 0 is
the first legal one). -/
def rrB0 : RootRes :=
  rootMoves neverTO posB0 1 0 movesB0 1 (- WIN_SCORE)
    { initState with timeout_flag := false }

/-- Rows of the claim C9 scenario board: the mover X holds three in a
row on the bottom row at columns 1-3 (1-indexed); everything else empty. -/
def rowsC9 : List String :=
  [".......", ".......", ".......", ".......", ".......", "XXX...."]

/-- The C9 scenario board as a function. -/
def bC9 : Board := fun r c => ((rowsC9.getD r "").toList.getD c '.')

/-- Well-formedness hypothesis of the evaluator: no scanned 4-cell
window is fully owned by one side (in C, a fully-owned window would read
`W[4]` out of bounds; such positions are excluded from evaluator
claims). -/
def noFourWindows (p : Position) : Prop :=
  (∀ rc ∈ winH, (window_counts p rc.1 rc.2 0 1).1 ≤ 3 ∧ (window_counts p rc.1 rc.2 0 1).2 ≤ 3) ∧
  (∀ rc ∈ winV, (window_counts p rc.1 rc.2 1 0).1 ≤ 3 ∧ (window_counts p rc.1 rc.2 1 0).2 ≤ 3) ∧
  (∀ rc ∈ winD1, (window_counts p rc.1 rc.2 1 1).1 ≤ 3 ∧ (window_counts p rc.1 rc.2 1 1).2 ≤ 3) ∧
  (∀ rc ∈ winD2, (window_counts p rc.1 rc.2 1 (-1)).1 ≤ 3 ∧ (window_counts p rc.1 rc.2 1 (-1)).2 ≤ 3)

/-! ### Bit-level helper lemmas -/

/-- Carry propagation of the mask update of `make_move`: if the bits of
`m` at offsets `i, i+1, …, i+k-1` are set and bit `i+k` is clear, then
OR-ing `m` with `m + 2^i` sets exactly the single bit `i+k` and changes
nothing else. -/
theorem lor_add_two_pow (m i k : Nat)
    (hrun : ∀ j, j < k → m.testBit (i + j) = true)
    (hk : m.testBit (i + k) = false) :
    m ||| (m + 2 ^ i) = m + 2 ^ (i + k) := by
  have hA : m % 2 ^ i < 2 ^ i := Nat.mod_lt _ (Nat.two_pow_pos i)
  have hm : m = 2 ^ i * (m / 2 ^ i) + m % 2 ^ i := by
    have := Nat.div_add_mod m (2 ^ i); omega
  set A := m % 2 ^ i
  set M := m / 2 ^ i
  have hMbit : ∀ t, M.testBit t = m.testBit (i + t) := by
    intro t
    have : M = m >>> i := (Nat.shiftRight_eq_div_pow m i).symm
    rw [this, Nat.testBit_shiftRight]
  have hMmod : M % 2 ^ (k + 1) = 2 ^ k - 1 := by
    apply Nat.eq_of_testBit_eq
    intro t
    rw [Nat.testBit_mod_two_pow, Nat.testBit_two_pow_sub_one, hMbit]
    by_cases h1 : t < k
    · simp [hrun t h1, h1, Nat.lt_succ_of_lt h1]
    · by_cases h2 : t = k
      · subst h2; simp [hk, h1]
      · have h3 : ¬ (t < k + 1) := by omega
        simp [h1, h3]
  have hM : M = 2 ^ (k + 1) * (M / 2 ^ (k + 1)) + (2 ^ k - 1) := by
    have := Nat.div_add_mod M (2 ^ (k + 1)); omega
  set B := M / 2 ^ (k + 1)
  have hkpos : (1 : Nat) ≤ 2 ^ k := Nat.one_le_two_pow
  have hdouble : (2:Nat) ^ (k + 1) = 2 * 2 ^ k := by ring
  obtain ⟨C, hC⟩ : ∃ C, 2 ^ k = C + 1 := ⟨2 ^ k - 1, by omega⟩
  have hCeq : 2 ^ k - 1 = C := by omega
  have e1 : m = 2 ^ i * (2 ^ (k + 1) * B + C) + A := by
    rw [← hCeq, ← hM, ← hm]
  have e2 : m + 2 ^ i = 2 ^ i * (2 ^ (k + 1) * B + (C + 1)) + A := by
    rw [e1]; ring
  have hC2 : 2 ^ (k + 1) - 1 = 2 * C + 1 := by omega
  have hpow : (2:Nat) ^ (i + k) = 2 ^ i * (C + 1) := by rw [pow_add, hC]
  have e3 : m + 2 ^ (i + k) = 2 ^ i * (2 ^ (k + 1) * B + (2 * C + 1)) + A := by
    rw [e1, hpow]; ring
  have lt1 : C < 2 ^ (k + 1) := by omega
  have lt2 : C + 1 < 2 ^ (k + 1) := by omega
  have lt3 : 2 * C + 1 < 2 ^ (k + 1) := by omega
  rw [e2, e3, e1]
  apply Nat.eq_of_testBit_eq
  intro j
  rw [Nat.testBit_or]
  rw [Nat.testBit_mul_pow_two_add _ hA, Nat.testBit_mul_pow_two_add _ hA,
      Nat.testBit_mul_pow_two_add _ hA]
  by_cases hj : j < i
  · simp [hj]
  · simp only [hj, if_false]
    set t := j - i
    rw [Nat.testBit_mul_pow_two_add _ lt1, Nat.testBit_mul_pow_two_add _ lt2,
        Nat.testBit_mul_pow_two_add _ lt3]
    by_cases ht : t < k + 1
    · simp only [ht, if_true]
      rw [← hC2, ← hC, ← hCeq, Nat.testBit_two_pow_sub_one,
        Nat.testBit_two_pow_sub_one, Nat.testBit_two_pow]
      by_cases h1 : t < k
      · have : ¬ (k = t) := by omega
        simp [h1, this, ht]
      · have h2 : t = k := by omega
        subst h2
        simp [h1, ht]
    · simp [ht]

theorem and_two_pow_eq_zero_iff (m k : Nat) :
    (m &&& 2 ^ k = 0) ↔ m.testBit k = false := by
  constructor
  · intro h
    have := congrArg (fun x => Nat.testBit x k) h
    simpa using this
  · intro h
    apply Nat.eq_of_testBit_eq
    intro i
    simp only [Nat.testBit_and, Nat.zero_testBit]
    rcases eq_or_ne i k with rfl | hne
    · simp [h]
    · simp [Nat.testBit_two_pow_of_ne (Ne.symm hne)]

theorem ne_zero_iff_exists_testBit (m : Nat) :
    m ≠ 0 ↔ ∃ i, m.testBit i = true := by
  constructor
  · exact fun h => Nat.ne_zero_implies_bit_true h
  · rintro ⟨i, hi⟩ rfl
    simp [Nat.zero_testBit] at hi

/-- Adding a power of two at a clear bit position sets exactly that bit. -/
theorem testBit_add_two_pow (m j : Nat) (hj : m.testBit j = false) (i : Nat) :
    (m + 2 ^ j).testBit i = (m.testBit i || decide (i = j)) := by
  have h2 : m % 2 ^ (j + 1) < 2 ^ (j + 1) := Nat.mod_lt _ (Nat.two_pow_pos _)
  set r := m % 2 ^ (j + 1) with hrdef
  have hrbit : r.testBit j = false := by
    rw [hrdef, Nat.testBit_mod_two_pow]
    simp [hj]
  have hrlt : r < 2 ^ j := by
    by_contra hge
    push_neg at hge
    have hquot : r / 2 ^ j = 1 := by
      have h1 : r / 2 ^ j < 2 := by
        apply Nat.div_lt_of_lt_mul
        have hpw : (2:Nat) ^ (j + 1) = 2 ^ j * 2 := by ring
        omega
      have h0 : 1 ≤ r / 2 ^ j := (Nat.one_le_div_iff (Nat.two_pow_pos j)).2 hge
      omega
    rw [Nat.testBit_to_div_mod, hquot] at hrbit
    simp at hrbit
  have hm : m = 2 ^ (j + 1) * (m / 2 ^ (j + 1)) + r := by
    have := Nat.div_add_mod m (2 ^ (j + 1)); omega
  set q := m / 2 ^ (j + 1)
  have e1 : m + 2 ^ j = 2 ^ (j + 1) * q + (2 ^ j * 1 + r) := by omega
  have hlt : 2 ^ j * 1 + r < 2 ^ (j + 1) := by
    have : (2:Nat) ^ (j + 1) = 2 * 2 ^ j := by ring
    omega
  rw [e1, Nat.testBit_mul_pow_two_add _ hlt]
  conv_rhs => rw [hm]
  rw [Nat.testBit_mul_pow_two_add _ h2]
  by_cases hij : i < j + 1
  · simp only [hij, if_true]
    rw [Nat.testBit_mul_pow_two_add _ hrlt]
    by_cases hij2 : i < j
    · have : i ≠ j := by omega
      simp [hij2, this]
    · have hieq : i = j := by omega
      subst hieq
      simp [hij2, hrbit]
  · simp only [hij, if_false]
    have : i ≠ j := by omega
    simp [this]

theorem shiftAnd_spec (bb s d : Nat) (hd : d = 2 * s) :
    ((bb &&& (bb >>> s)) &&& ((bb &&& (bb >>> s)) >>> d) ≠ 0) ↔
      ∃ i, bb.testBit i = true ∧ bb.testBit (i + s) = true ∧
        bb.testBit (i + 2 * s) = true ∧ bb.testBit (i + 3 * s) = true := by
  subst hd
  rw [ne_zero_iff_exists_testBit]
  constructor
  · rintro ⟨i, hi⟩
    simp only [Nat.testBit_and, Nat.testBit_shiftRight, Bool.and_eq_true] at hi
    obtain ⟨⟨h0, h1⟩, h2, h3⟩ := hi
    refine ⟨i, h0, ?_, ?_, ?_⟩
    · rw [show i + s = s + i from by omega]; exact h1
    · rw [show i + 2 * s = 2 * s + i from by omega]; exact h2
    · rw [show i + 3 * s = s + (2 * s + i) from by omega]; exact h3
  · rintro ⟨i, h0, h1, h2, h3⟩
    refine ⟨i, ?_⟩
    simp only [Nat.testBit_and, Nat.testBit_shiftRight, Bool.and_eq_true]
    refine ⟨⟨h0, ?_⟩, ?_, ?_⟩
    · rw [show s + i = i + s from by omega]; exact h1
    · rw [show 2 * s + i = i + 2 * s from by omega]; exact h2
    · rw [show s + (2 * s + i) = i + 3 * s from by omega]; exact h3

/-- bit-level form of has_won_bb -/
theorem has_won_bb_iff (bb : Nat) :
    has_won_bb bb = true ↔
      ∃ s, (s = 1 ∨ s = 7 ∨ s = 6 ∨ s = 8) ∧
        ∃ i, bb.testBit i = true ∧ bb.testBit (i + s) = true ∧
          bb.testBit (i + 2 * s) = true ∧ bb.testBit (i + 3 * s) = true := by
  unfold has_won_bb
  dsimp only
  split_ifs with h1 h2 h3 h4
  · simp only [true_iff]
    exact ⟨1, Or.inl rfl, (shiftAnd_spec bb 1 2 rfl).1 h1⟩
  · simp only [true_iff]
    exact ⟨7, Or.inr (Or.inl rfl), (shiftAnd_spec bb 7 14 rfl).1 h2⟩
  · simp only [true_iff]
    exact ⟨6, Or.inr (Or.inr (Or.inl rfl)), (shiftAnd_spec bb 6 12 rfl).1 h3⟩
  · simp only [true_iff]
    exact ⟨8, Or.inr (Or.inr (Or.inr rfl)), (shiftAnd_spec bb 8 16 rfl).1 h4⟩
  · simp only [Bool.false_eq_true, false_iff]
    rintro ⟨s, hs, hex⟩
    rcases hs with rfl | rfl | rfl | rfl
    · exact h1 ((shiftAnd_spec bb 1 2 rfl).2 hex)
    · exact h2 ((shiftAnd_spec bb 7 14 rfl).2 hex)
    · exact h3 ((shiftAnd_spec bb 6 12 rfl).2 hex)
    · exact h4 ((shiftAnd_spec bb 8 16 rfl).2 hex)

/-! ### Characterisation of the loaded root position -/

theorem mem_cellsCR (x : Nat × Nat) : x ∈ cellsCR ↔ x.1 < 7 ∧ x.2 < 6 := by
  obtain ⟨c, r⟩ := x
  simp [cellsCR]

theorem loadFold_mask_testBit (b : Board) (bot : Char) (l : List (Nat × Nat))
    (p0 : Position) (i : Nat) :
    ((l.foldl (loadStep b bot) p0).mask.testBit i = true) ↔
      (p0.mask.testBit i = true ∨
        ∃ cr ∈ l, i = cr.1 * 7 + (5 - cr.2) ∧ b cr.2 cr.1 ≠ '.') := by
  induction l generalizing p0 with
  | nil => simp
  | cons hd tl ih =>
    simp only [List.foldl_cons, List.mem_cons]
    rw [ih]
    by_cases hdot : b hd.2 hd.1 = '.'
    · simp only [loadStep]
      rw [if_pos hdot]
      constructor
      · rintro (h | ⟨cr, hcr, hi, hne⟩)
        · exact Or.inl h
        · exact Or.inr ⟨cr, Or.inr hcr, hi, hne⟩
      · rintro (h | ⟨cr, hcr2, hi, hne⟩)
        · exact Or.inl h
        · rcases hcr2 with rfl | hcr
          · exact absurd hdot hne
          · exact Or.inr ⟨cr, hcr, hi, hne⟩
    · simp only [loadStep]
      rw [if_neg hdot]
      simp only [Nat.testBit_or, Nat.one_shiftLeft, Nat.testBit_two_pow,
        Bool.or_eq_true, decide_eq_true_eq]
      constructor
      · rintro ((h | h) | ⟨cr, hcr, hi, hne⟩)
        · exact Or.inl h
        · exact Or.inr ⟨hd, Or.inl rfl, h.symm, hdot⟩
        · exact Or.inr ⟨cr, Or.inr hcr, hi, hne⟩
      · rintro (h | ⟨cr, hcr2, hi, hne⟩)
        · exact Or.inl (Or.inl h)
        · rcases hcr2 with rfl | hcr
          · exact Or.inl (Or.inr hi.symm)
          · exact Or.inr ⟨cr, hcr, hi, hne⟩

theorem loadFold_position_testBit (b : Board) (bot : Char) (l : List (Nat × Nat))
    (p0 : Position) (i : Nat) :
    ((l.foldl (loadStep b bot) p0).position.testBit i = true) ↔
      (p0.position.testBit i = true ∨
        ∃ cr ∈ l, i = cr.1 * 7 + (5 - cr.2) ∧ b cr.2 cr.1 ≠ '.' ∧ b cr.2 cr.1 = bot) := by
  induction l generalizing p0 with
  | nil => simp
  | cons hd tl ih =>
    simp only [List.foldl_cons, List.mem_cons]
    rw [ih]
    by_cases hdot : b hd.2 hd.1 = '.'
    · simp only [loadStep]
      rw [if_pos hdot]
      constructor
      · rintro (h | ⟨cr, hcr, hi, hne, hb⟩)
        · exact Or.inl h
        · exact Or.inr ⟨cr, Or.inr hcr, hi, hne, hb⟩
      · rintro (h | ⟨cr, hcr2, hi, hne, hb⟩)
        · exact Or.inl h
        · rcases hcr2 with rfl | hcr
          · exact absurd hdot hne
          · exact Or.inr ⟨cr, hcr, hi, hne, hb⟩
    · simp only [loadStep]
      rw [if_neg hdot]
      by_cases hbot : b hd.2 hd.1 = bot
      · rw [if_pos hbot]
        simp only [Nat.testBit_or, Nat.one_shiftLeft, Nat.testBit_two_pow,
          Bool.or_eq_true, decide_eq_true_eq]
        constructor
        · rintro ((h | h) | ⟨cr, hcr, hi, hne, hb⟩)
          · exact Or.inl h
          · exact Or.inr ⟨hd, Or.inl rfl, h.symm, hdot, hbot⟩
          · exact Or.inr ⟨cr, Or.inr hcr, hi, hne, hb⟩
        · rintro (h | ⟨cr, hcr2, hi, hne, hb⟩)
          · exact Or.inl (Or.inl h)
          · rcases hcr2 with rfl | hcr
            · exact Or.inl (Or.inr hi.symm)
            · exact Or.inr ⟨cr, hcr, hi, hne, hb⟩
      · rw [if_neg hbot]
        constructor
        · rintro (h | ⟨cr, hcr, hi, hne, hb⟩)
          · exact Or.inl h
          · exact Or.inr ⟨cr, Or.inr hcr, hi, hne, hb⟩
        · rintro (h | ⟨cr, hcr2, hi, hne, hb⟩)
          · exact Or.inl h
          · rcases hcr2 with rfl | hcr
            · exact absurd hb hbot
            · exact Or.inr ⟨cr, hcr, hi, hne, hb⟩

theorem loadPos_mask_testBit (b : Board) (bot : Char) (i : Nat) :
    ((loadPos b bot).mask.testBit i = true) ↔
      ∃ c, c < 7 ∧ ∃ r, r < 6 ∧ i = c * 7 + (5 - r) ∧ b r c ≠ '.' := by
  rw [loadPos, loadFold_mask_testBit]
  simp only [Nat.zero_testBit, Bool.false_eq_true, false_or]
  constructor
  · rintro ⟨cr, hmem, hi, hne⟩
    rw [mem_cellsCR] at hmem
    exact ⟨cr.1, hmem.1, cr.2, hmem.2, hi, hne⟩
  · rintro ⟨c, hc, r, hr, hi, hne⟩
    exact ⟨(c, r), (mem_cellsCR (c, r)).2 ⟨hc, hr⟩, hi, hne⟩

theorem loadPos_position_testBit (b : Board) (bot : Char) (i : Nat) :
    ((loadPos b bot).position.testBit i = true) ↔
      ∃ c, c < 7 ∧ ∃ r, r < 6 ∧ i = c * 7 + (5 - r) ∧ b r c ≠ '.' ∧ b r c = bot := by
  rw [loadPos, loadFold_position_testBit]
  simp only [Nat.zero_testBit, Bool.false_eq_true, false_or]
  constructor
  · rintro ⟨cr, hmem, hi, hne, hb⟩
    rw [mem_cellsCR] at hmem
    exact ⟨cr.1, hmem.1, cr.2, hmem.2, hi, hne, hb⟩
  · rintro ⟨c, hc, r, hr, hi, hne, hb⟩
    exact ⟨(c, r), (mem_cellsCR (c, r)).2 ⟨hc, hr⟩, hi, hne, hb⟩

theorem loadPos_mask_top (b : Board) (bot : Char) (c : Nat) (hc : c < 7) :
    (loadPos b bot).mask.testBit (c * 7 + 5) = false ↔ b 0 c = '.' := by
  constructor
  · intro h
    by_contra hne
    have ht : ((loadPos b bot).mask.testBit (c * 7 + 5) = true) :=
      (loadPos_mask_testBit b bot _).2 ⟨c, hc, 0, by omega, by omega, hne⟩
    rw [ht] at h
    exact Bool.noConfusion h
  · intro h
    cases hb : (loadPos b bot).mask.testBit (c * 7 + 5) with
    | false => rfl
    | true =>
      exfalso
      obtain ⟨c', hc', r', hr', hi, hne2⟩ := (loadPos_mask_testBit b bot _).1 hb
      have hcr : c' = c ∧ r' = 0 := by omega
      obtain ⟨rfl, rfl⟩ := hcr
      exact hne2 h

theorem can_play_loadPos (b : Board) (bot : Char) (c : Nat) (hc : c < 7) :
    can_play (loadPos b bot) c = true ↔ b 0 c = '.' := by
  rw [← loadPos_mask_top b bot c hc]
  simp only [can_play, top_mask, Nat.one_shiftLeft, decide_eq_true_eq]
  exact and_two_pow_eq_zero_iff _ _


/-! ### Claim C3: effect of make_move -/

/-- C3: for a well-formed position (mover bits a subset of the occupancy
mask, columns contiguous from the bottom, sentinel bits clear) and a
playable column `c` whose lowest empty cell is at row `k` (every cell of
the column below row `k` occupied, row `k` free — the characterisation
of "lowest empty"), `make_move` yields a mask equal to the old mask plus
exactly that single lowest-empty-cell bit, mover bits equal to the old
opponent bits (mask XOR position), and removing the added bit with roles
re-swapped restores the original position exactly. -/
theorem make_move_adds_lowest_empty (p : Position) (c k : Nat)
    (hsub : p.position &&& p.mask = p.position)
    (hcontig : ∀ c', c' < 7 → ∀ r, r < 5 →
      p.mask.testBit (c' * 7 + r + 1) = true → p.mask.testBit (c' * 7 + r) = true)
    (hsent : ∀ c', c' < 7 → p.mask.testBit (c' * 7 + 6) = false)
    (hc : c < 7)
    (hplay : can_play p c = true)
    (hbelow : ∀ j, j < k → p.mask.testBit (c * 7 + j) = true)
    (hfree : p.mask.testBit (c * 7 + k) = false) :
    (make_move p c).mask = p.mask + 2 ^ (c * 7 + k) ∧
    (make_move p c).position = p.mask ^^^ p.position ∧
    (⟨(make_move p c).position ^^^ ((make_move p c).mask - 2 ^ (c * 7 + k)),
      (make_move p c).mask - 2 ^ (c * 7 + k)⟩ : Position) = p := by
  have hmask : (make_move p c).mask = p.mask + 2 ^ (c * 7 + k) := by
    show p.mask ||| (p.mask + bottom_mask c) = _
    rw [bottom_mask, Nat.one_shiftLeft]
    exact lor_add_two_pow p.mask (c * 7) k hbelow hfree
  have hposn : (make_move p c).position = p.mask ^^^ p.position := by
    show p.position ^^^ p.mask = p.mask ^^^ p.position
    exact Nat.xor_comm _ _
  refine ⟨hmask, hposn, ?_⟩
  have hm2 : (make_move p c).mask - 2 ^ (c * 7 + k) = p.mask := by
    rw [hmask]; omega
  rw [hposn, hm2]
  show (⟨(p.mask ^^^ p.position) ^^^ p.mask, p.mask⟩ : Position) = p
  have hxor : (p.mask ^^^ p.position) ^^^ p.mask = p.position := by
    rw [Nat.xor_comm p.mask p.position, Nat.xor_assoc, Nat.xor_self, Nat.xor_zero]
  rw [hxor]

/-- Witness for C3: column 0 of the position with mask 3 (two stones at
the bottom of column 0, the mover owning the lowest one) gains exactly
bit 2, and unmaking restores the position. -/
theorem make_move_adds_lowest_empty_witness :
    can_play ⟨1, 3⟩ 0 = true ∧
    ((make_move ⟨1, 3⟩ 0).mask = 3 + 2 ^ (0 * 7 + 2) ∧
     (make_move ⟨1, 3⟩ 0).position = 3 ^^^ 1 ∧
     (⟨(make_move ⟨1, 3⟩ 0).position ^^^ ((make_move ⟨1, 3⟩ 0).mask - 2 ^ (0 * 7 + 2)),
       (make_move ⟨1, 3⟩ 0).mask - 2 ^ (0 * 7 + 2)⟩ : Position) = ⟨1, 3⟩) :=
  ⟨by decide,
   make_move_adds_lowest_empty ⟨1, 3⟩ 0 2 (by decide)
     (by decide) (by decide) (by decide) (by decide)
     (by decide) (by decide)⟩

/-! ### Claim C8: what can_play actually tests -/

/-- C8 counterexample: with column 0 completely full (mask 63, bits 0-5
set), bit `0*7 + 6` — the sentinel bit named by the claim — is clear,
yet `can_play` answers false, because the code tests bit `0*7 + 5`.  So
"can_play is true iff bit column*7+6 is unset" fails at this input. -/
theorem can_play_sentinel_bit_counterexample :
    ¬ (can_play ⟨0, 63⟩ 0 = true ↔ Nat.testBit 63 (0 * 7 + 6) = false) := by
  decide

/-- Helper: can_play tests bit `column*7 + 5` of the occupancy mask. -/
theorem can_play_iff_top_bit (p : Position) (c : Nat) :
    can_play p c = true ↔ p.mask.testBit (c * 7 + 5) = false := by
  simp only [can_play, top_mask, Nat.one_shiftLeft, decide_eq_true_eq]
  exact and_two_pow_eq_zero_iff _ _

/-- C8 amended: `can_play` returns true iff bit `column*7 + 5` of the
occupancy mask — the top playable cell, not the sentinel — is unset. -/
theorem can_play_checks_top_playable_cell (p : Position) (c : Nat) :
    can_play p c = true ↔ p.mask.testBit (c * 7 + 5) = false :=
  can_play_iff_top_bit p c

/-! ### Claims C4 and C5: the transposition-table store step -/

/-- C4 amended: the bound flag written by the store step is Exact (0)
exactly when the best value lies strictly inside the window recorded
AFTER the transposition-table tightening (`alpha0`, `beta0` of
bot_hard.c line 413-415), UpperBound (2) when it is at most `alpha0`,
and LowerBound (1) when it is at least `beta0` — not the window the
node was originally called with.  `negaNode` invokes `ttStore` with
exactly those post-tightening bounds. -/
theorem ttStore_flag_formula (e : TTEntry) (key g depth_rem : Nat)
    (bv bm α0 β0 : Int) :
    (ttStore e key g depth_rem bv bm α0 β0).flag =
      (if bv ≤ α0 then 2 else if bv ≥ β0 then 1 else 0) := rfl

/-- C4 counterexample: a negamax call on the empty position, with the
original window (-WIN_SCORE, WIN_SCORE) and a seeded same-generation
lower-bound entry of value 500000 that tightens alpha.  The returned
best value lies strictly inside the original window, so the claim
demands the Exact flag (0), but the code stores flag 2 (UpperBound). -/
theorem negamax_flag_original_window_counterexample :
    seededC4.ttable 0 = ⟨0, 5, 500000, 1, 0, 2⟩ ∧
    (- WIN_SCORE < (negamax neverTO 1 ⟨0, 0⟩ 1 (- WIN_SCORE) WIN_SCORE seededC4).1 ∧
      (negamax neverTO 1 ⟨0, 0⟩ 1 (- WIN_SCORE) WIN_SCORE seededC4).1 < WIN_SCORE) ∧
    ((negamax neverTO 1 ⟨0, 0⟩ 1 (- WIN_SCORE) WIN_SCORE seededC4).2.ttable 0).flag = 2 := by
  decide

/-- C5 amended: when the slot holds a same-generation entry of strictly
greater depth, the store step leaves its key, depth, value, move and
generation unchanged, but the bound flag is still rewritten with the
flag of the new (shallower) result. -/
theorem ttStore_deeper_frame (e : TTEntry) (key g : Nat) (depth_rem : Nat)
    (bv bm α0 β0 : Int)
    (hgen : e.gen = g) (hkey : e.key = key) (hdeep : e.depth > (depth_rem : Int)) :
    (ttStore e key g depth_rem bv bm α0 β0).key = e.key ∧
    (ttStore e key g depth_rem bv bm α0 β0).depth = e.depth ∧
    (ttStore e key g depth_rem bv bm α0 β0).value = e.value ∧
    (ttStore e key g depth_rem bv bm α0 β0).move = e.move ∧
    (ttStore e key g depth_rem bv bm α0 β0).gen = e.gen ∧
    (ttStore e key g depth_rem bv bm α0 β0).flag =
      (if bv ≤ α0 then 2 else if bv ≥ β0 then 1 else 0) := by
  have hcond : ¬¬(e.gen = g ∧ e.key = key ∧ e.depth > (depth_rem : Int)) :=
    not_not_intro ⟨hgen, hkey, hdeep⟩
  simp only [ttStore]
  rw [if_neg hcond]
  simp

/-- Witness for the amended C5 store-frame property at concrete values:
a depth-5 entry probed by a depth-1 store keeps all fields except the
flag, which becomes Exact (0) for a value inside the window. -/
theorem ttStore_deeper_frame_witness :
    (ttStore ⟨9, 5, 7, 1, 2, 3⟩ 9 3 1 0 4 (-10) 10).key = 9 ∧
    (ttStore ⟨9, 5, 7, 1, 2, 3⟩ 9 3 1 0 4 (-10) 10).depth = 5 ∧
    (ttStore ⟨9, 5, 7, 1, 2, 3⟩ 9 3 1 0 4 (-10) 10).value = 7 ∧
    (ttStore ⟨9, 5, 7, 1, 2, 3⟩ 9 3 1 0 4 (-10) 10).move = 2 ∧
    (ttStore ⟨9, 5, 7, 1, 2, 3⟩ 9 3 1 0 4 (-10) 10).gen = 3 ∧
    (ttStore ⟨9, 5, 7, 1, 2, 3⟩ 9 3 1 0 4 (-10) 10).flag = 0 := by
  have h := ttStore_deeper_frame ⟨9, 5, 7, 1, 2, 3⟩ 9 3 1 0 4 (-10) 10 rfl rfl (by decide)
  simpa using h

/-- C5 counterexample: a negamax call on the empty position whose slot
carries a same-generation entry of depth 5 (strictly greater than the
stored depth 1) with bound flag 1; after the call the entry's bound
flag has changed to 0 while all other fields kept their values — the
store did not leave every field unchanged. -/
theorem negamax_deeper_entry_flag_overwritten :
    seededC5.ttable 0 = ⟨0, 5, -1000000, 1, 0, 2⟩ ∧
    seededC5.generation = 2 ∧
    ((negamax neverTO 1 ⟨0, 0⟩ 1 (- WIN_SCORE) WIN_SCORE seededC5).2.ttable 0) =
      ⟨0, 5, -1000000, 0, 0, 2⟩ := by
  decide

/-! ### Claim C7: the deepening loop does not stop on a forced win -/

/-- C7 amended: after a depth iteration completes without a timeout, the
loop of getBotMoveHard always proceeds to the next depth — even when the
completed depth's best score reaches the forced-win range (at least
WIN_SCORE - 1000); no score-based early termination exists in this
variant (it exists only in the part_002 variant of getBotMoveHard). -/
theorem idLoop_continues_after_winning_score
    (oracle : Nat → Bool) (pos : Position) (rk ri rem depth : Nat)
    (bm lcd : Nat) (ls : Int) (st : SearchState)
    (hmv : idDepthMoves pos rk ri { st with timeout_flag := false } ≠ [])
    (hto : (rootMoves oracle pos depth ls
        (idDepthMoves pos rk ri { st with timeout_flag := false }) bm (- WIN_SCORE)
        { st with timeout_flag := false }).timeout = false)
    (hck : (checkTime oracle (rootMoves oracle pos depth ls
        (idDepthMoves pos rk ri { st with timeout_flag := false }) bm (- WIN_SCORE)
        { st with timeout_flag := false }).st).1 = false)
    (hwin : (rootMoves oracle pos depth ls
        (idDepthMoves pos rk ri { st with timeout_flag := false }) bm (- WIN_SCORE)
        { st with timeout_flag := false }).best_val ≥ WIN_SCORE - 1000) :
    idLoop oracle pos rk ri (rem + 1) depth bm lcd ls st =
      idLoop oracle pos rk ri rem (depth + 1)
        (rootMoves oracle pos depth ls
          (idDepthMoves pos rk ri { st with timeout_flag := false }) bm (- WIN_SCORE)
          { st with timeout_flag := false }).local_best depth
        (rootMoves oracle pos depth ls
          (idDepthMoves pos rk ri { st with timeout_flag := false }) bm (- WIN_SCORE)
          { st with timeout_flag := false }).best_val
        (checkTime oracle (rootMoves oracle pos depth ls
          (idDepthMoves pos rk ri { st with timeout_flag := false }) bm (- WIN_SCORE)
          { st with timeout_flag := false }).st).2 := by
  conv_lhs => rw [idLoop]
  simp only []
  rw [if_neg hmv]
  rw [if_neg (by rw [hto]; exact Bool.false_ne_true)]
  rw [if_neg (by rw [hck]; exact Bool.false_ne_true)]

/-- Witness for the amended C7: on the near-full test board the depth-1
iteration completes with the forced-win score WIN_SCORE - 1, and the
loop still starts the depth-2 iteration. -/
theorem idLoop_continues_after_winning_score_witness :
    movesB0 ≠ [] ∧ rrB0.timeout = false ∧
    (checkTime neverTO rrB0.st).1 = false ∧
    rrB0.best_val ≥ WIN_SCORE - 1000 ∧
    idLoop neverTO posB0 (tt_key posB0) (tt_idx (tt_key posB0)) 2 1 1 0 0 initState =
      idLoop neverTO posB0 (tt_key posB0) (tt_idx (tt_key posB0)) 1 2
        rrB0.local_best 1 rrB0.best_val (checkTime neverTO rrB0.st).2 :=
  ⟨by decide, by decide, by decide, by decide,
   idLoop_continues_after_winning_score neverTO posB0 (tt_key posB0)
     (tt_idx (tt_key posB0)) 1 1 1 0 0 initState
     (by decide) (by decide) (by decide) (by decide)⟩

/-- C7 counterexample: on the near-full test board (two empty cells, so
the depth cap is 2), the depth-1 iteration of the run completes without
timeout and its best score is WIN_SCORE - 1 — at or above the forced-win
threshold — yet the loop deepens again: the run's last completed depth
is 2, so a deeper iteration was started after the winning depth. -/
theorem idLoop_deepens_after_forced_win_counterexample :
    countEmpties bB0 = 2 ∧
    rrB0.timeout = false ∧
    rrB0.best_val = WIN_SCORE - 1 ∧
    WIN_SCORE - 1 ≥ WIN_SCORE - 1000 ∧
    (runID bB0 'X' neverTO).last_completed = 2 := by
  decide

/-! ### Claim C10: getBotMoveHard does not mutate the board -/

/-- C10: getBotMoveHard never writes to its input board: the board seen
by the caller after the call (the second component of the embedding,
threaded through every exit of the source function) agrees with the
input board at every cell. -/
theorem getBotMoveHard_board_frame (b : Board) (bot opponent : Char)
    (oracle : Nat → Bool) (r c : Nat) :
    (getBotMoveHardImpl b bot opponent oracle).2 r c = b r c := by
  unfold getBotMoveHardImpl
  dsimp only
  split
  · rfl
  · split
    · rfl
    · split
      · rfl
      · rfl

/-! ### Claim C9: immediate wins are taken -/
theorem mem_cellsRC (x : Nat × Nat) : x ∈ cellsRC ↔ x.1 < 6 ∧ x.2 < 7 := by
  obtain ⟨r, c⟩ := x
  simp [cellsRC]

theorem cellsRC_nodup : cellsRC.Nodup := by decide

theorem stonesTriple_count (b : Board) (bot : Char) (l : List (Nat × Nat))
    (s m o : Nat) :
    l.foldl
      (fun acc rc =>
        let cell := b rc.1 rc.2
        if cell ≠ '.' then
          (acc.1 + 1,
           (if cell = bot then acc.2.1 + 1 else acc.2.1),
           (if cell = bot then acc.2.2 else acc.2.2 + 1))
        else acc) (s, m, o) =
    (s + l.countP (fun rc => decide (b rc.1 rc.2 ≠ '.')),
     m + l.countP (fun rc => decide (b rc.1 rc.2 ≠ '.' ∧ b rc.1 rc.2 = bot)),
     o + l.countP (fun rc => decide (b rc.1 rc.2 ≠ '.' ∧ b rc.1 rc.2 ≠ bot))) := by
  induction l generalizing s m o with
  | nil => simp
  | cons hd tl ih =>
    simp only [List.foldl_cons, List.countP_cons]
    by_cases h1 : b hd.1 hd.2 ≠ '.'
    · have d1 : decide (b hd.1 hd.2 ≠ '.') = true := by
        rw [decide_eq_true_eq]; exact h1
      by_cases h2 : b hd.1 hd.2 = bot
      · have d2 : decide (b hd.1 hd.2 ≠ '.' ∧ b hd.1 hd.2 = bot) = true := by
          rw [decide_eq_true_eq]; exact ⟨h1, h2⟩
        have d3 : decide (b hd.1 hd.2 ≠ '.' ∧ b hd.1 hd.2 ≠ bot) = false := by
          rw [decide_eq_false_iff_not]; rintro ⟨-, hne⟩; exact hne h2
        rw [if_pos h1, if_pos h2, if_pos h2, ih, d1, d2, d3]
        simp only [Bool.false_eq_true, eq_self_iff_true, if_true, if_false, Prod.mk.injEq]
        omega
      · have d2 : decide (b hd.1 hd.2 ≠ '.' ∧ b hd.1 hd.2 = bot) = false := by
          rw [decide_eq_false_iff_not]; rintro ⟨-, he⟩; exact h2 he
        have d3 : decide (b hd.1 hd.2 ≠ '.' ∧ b hd.1 hd.2 ≠ bot) = true := by
          rw [decide_eq_true_eq]; exact ⟨h1, h2⟩
        rw [if_pos h1, if_neg h2, if_neg h2, ih, d1, d2, d3]
        simp only [Bool.false_eq_true, eq_self_iff_true, if_true, if_false, Prod.mk.injEq]
        omega
    · have d1 : decide (b hd.1 hd.2 ≠ '.') = false := by
        rw [decide_eq_false_iff_not]; exact h1
      have d2 : decide (b hd.1 hd.2 ≠ '.' ∧ b hd.1 hd.2 = bot) = false := by
        rw [decide_eq_false_iff_not]; rintro ⟨hne, -⟩; exact h1 hne
      have d3 : decide (b hd.1 hd.2 ≠ '.' ∧ b hd.1 hd.2 ≠ bot) = false := by
        rw [decide_eq_false_iff_not]; rintro ⟨hne, -⟩; exact h1 hne
      rw [if_neg h1, ih, d1, d2, d3]
      simp only [Bool.false_eq_true, eq_self_iff_true, if_true, if_false, Prod.mk.injEq]
      omega

theorem stonesTriple_eq (b : Board) (bot : Char) :
    stonesTriple b bot =
      (cellsRC.countP (fun rc => decide (b rc.1 rc.2 ≠ '.')),
       cellsRC.countP (fun rc => decide (b rc.1 rc.2 ≠ '.' ∧ b rc.1 rc.2 = bot)),
       cellsRC.countP (fun rc => decide (b rc.1 rc.2 ≠ '.' ∧ b rc.1 rc.2 ≠ bot))) := by
  rw [stonesTriple, stonesTriple_count]
  simp

theorem three_distinct_countP {α : Type} [DecidableEq α] (l : List α)
    (hnd : l.Nodup) (p : α → Bool) (a b c : α)
    (ha : a ∈ l) (hb : b ∈ l) (hc : c ∈ l)
    (hab : a ≠ b) (hac : a ≠ c) (hbc : b ≠ c)
    (hpa : p a = true) (hpb : p b = true) (hpc : p c = true) :
    3 ≤ l.countP p := by
  have hnf : (l.filter p).Nodup := hnd.filter p
  have hsub : ({a, b, c} : Finset α) ⊆ (l.filter p).toFinset := by
    intro x hx
    simp only [Finset.mem_insert, Finset.mem_singleton] at hx
    rcases hx with rfl | rfl | rfl <;>
      simp only [List.mem_toFinset, List.mem_filter] <;>
      exact ⟨by assumption, by assumption⟩
  have hcard : ({a, b, c} : Finset α).card = 3 := by
    rw [Finset.card_insert_of_not_mem (by simp [hab, hac]),
        Finset.card_insert_of_not_mem (by simp [hbc]),
        Finset.card_singleton]
  calc 3 = ({a, b, c} : Finset α).card := hcard.symm
    _ ≤ (l.filter p).toFinset.card := Finset.card_le_card hsub
    _ = (l.filter p).length := List.toFinset_card_of_nodup hnf
    _ = l.countP p := (List.countP_eq_length_filter _ _).symm

theorem opening_book_move_eq_zero (b : Board) (bot : Char)
    (h3 : 3 ≤ (stonesTriple b bot).2.1) : opening_book_move b bot = 0 := by
  have hms : (stonesTriple b bot).2.1 ≤ (stonesTriple b bot).1 := by
    rw [stonesTriple_eq]
    dsimp only
    exact List.countP_mono_left (fun x hx hp => by
      simp only [decide_eq_true_eq] at hp ⊢
      exact hp.1)
  unfold opening_book_move
  dsimp only
  split_ifs <;> first | rfl | (exfalso; omega)



theorem opponent_bb_make_move (p : Position) (c k : Nat)
    (hsub : ∀ i, p.position.testBit i = true → p.mask.testBit i = true)
    (hbelow : ∀ j, j < k → p.mask.testBit (c * 7 + j) = true)
    (hfree : p.mask.testBit (c * 7 + k) = false) (i : Nat) :
    (opponent_bb (make_move p c)).testBit i =
      (p.position.testBit i || decide (i = c * 7 + k)) := by
  have hmask : p.mask ||| (p.mask + bottom_mask c) = p.mask + 2 ^ (c * 7 + k) := by
    rw [bottom_mask, Nat.one_shiftLeft]
    exact lor_add_two_pow p.mask (c * 7) k hbelow hfree
  simp only [opponent_bb, make_move]
  rw [hmask, Nat.testBit_xor, testBit_add_two_pow _ _ hfree, Nat.testBit_xor]
  by_cases hi : i = c * 7 + k
  · subst hi
    have hp : p.position.testBit (c * 7 + k) = false := by
      cases hp : p.position.testBit (c * 7 + k) with
      | false => rfl
      | true => rw [hsub _ hp] at hfree; exact Bool.noConfusion hfree
    rw [hfree, hp]
    simp
  · have hd : decide (i = c * 7 + k) = false := by
      rw [decide_eq_false_iff_not]; exact hi
    rw [hd]
    simp only [Bool.or_false]
    cases p.mask.testBit i <;> cases p.position.testBit i <;> rfl

theorem three_set_bits_of_line (w : Nat) (i s J : Nat) (hs : 0 < s)
    (h : ∀ t, t < 4 → (w.testBit (i + t * s) = true ∨ i + t * s = J)) :
    ∃ a b c : Nat, a < b ∧ b < c ∧
      w.testBit a = true ∧ w.testBit b = true ∧ w.testBit c = true := by
  have h0 := h 0 (by omega)
  have h1 := h 1 (by omega)
  have h2 := h 2 (by omega)
  have h3 := h 3 (by omega)
  rcases h0 with hb0 | he0
  · rcases h1 with hb1 | he1
    · rcases h2 with hb2 | he2
      · exact ⟨i, i + 1 * s, i + 2 * s, by omega, by omega, by simpa using hb0, hb1, hb2⟩
      · rcases h3 with hb3 | he3
        · exact ⟨i, i + 1 * s, i + 3 * s, by omega, by omega, by simpa using hb0, hb1, hb3⟩
        · omega
    · rcases h2 with hb2 | he2
      · rcases h3 with hb3 | he3
        · exact ⟨i, i + 2 * s, i + 3 * s, by omega, by omega, by simpa using hb0, hb2, hb3⟩
        · omega
      · omega
  · rcases h1 with hb1 | he1
    · rcases h2 with hb2 | he2
      · rcases h3 with hb3 | he3
        · exact ⟨i + 1 * s, i + 2 * s, i + 3 * s, by omega, by omega, hb1, hb2, hb3⟩
        · omega
      · omega
    · omega

theorem my_stones_ge_three (b : Board) (bot : Char) (c : Nat) (hc : c < 7)
    (hplay : can_play (loadPos b bot) c = true)
    (hwin : has_won_bb (opponent_bb (make_move (loadPos b bot) c)) = true) :
    3 ≤ (stonesTriple b bot).2.1 := by
  set p := loadPos b bot with hp
  have h5 : p.mask.testBit (c * 7 + 5) = false :=
    (can_play_iff_top_bit p c).1 hplay
  have hex : ∃ j, p.mask.testBit (c * 7 + j) = false := ⟨5, h5⟩
  set k := Nat.find hex with hk
  have hfree : p.mask.testBit (c * 7 + k) = false := Nat.find_spec hex
  have hbelow : ∀ j, j < k → p.mask.testBit (c * 7 + j) = true := by
    intro j hj
    have := Nat.find_min hex hj
    exact Bool.ne_false_iff.1 this
  have hsub : ∀ i, p.position.testBit i = true → p.mask.testBit i = true := by
    intro i hi
    obtain ⟨c', hc', r', hr', hieq, hne, hbt⟩ :=
      (loadPos_position_testBit b bot i).1 hi
    exact (loadPos_mask_testBit b bot i).2 ⟨c', hc', r', hr', hieq, hne⟩
  rw [has_won_bb_iff] at hwin
  obtain ⟨s, hsor, i, hw0, hw1, hw2, hw3⟩ := hwin
  have hs : 0 < s := by rcases hsor with rfl | rfl | rfl | rfl <;> omega
  have hline : ∀ t, t < 4 →
      (p.position.testBit (i + t * s) = true ∨ i + t * s = c * 7 + k) := by
    intro t ht
    have hbit : (opponent_bb (make_move p c)).testBit (i + t * s) = true := by
      interval_cases t
      · simpa using hw0
      · simpa using hw1
      · exact hw2
      · exact hw3
    rw [opponent_bb_make_move p c k hsub hbelow hfree] at hbit
    rw [Bool.or_eq_true] at hbit
    rcases hbit with h | h
    · exact Or.inl h
    · exact Or.inr (of_decide_eq_true h)
  obtain ⟨a, bix, cix, hab, hbc, hba, hbb, hbcx⟩ :=
    three_set_bits_of_line p.position i s (c * 7 + k) hs hline
  obtain ⟨ca, hca, ra, hra, haeq, hane, habot⟩ := (loadPos_position_testBit b bot a).1 hba
  obtain ⟨cb, hcb, rb, hrb, hbeq, hbne, hbbot⟩ := (loadPos_position_testBit b bot bix).1 hbb
  obtain ⟨cc, hcc, rc2, hrc, hceq, hcne, hcbot⟩ := (loadPos_position_testBit b bot cix).1 hbcx
  have hmy := stonesTriple_eq b bot
  apply le_trans _ (le_of_eq (congrArg (fun t => t.2.1) hmy).symm)
  dsimp only
  apply three_distinct_countP cellsRC cellsRC_nodup _ (ra, ca) (rb, cb) (rc2, cc)
  · exact (mem_cellsRC _).2 ⟨hra, hca⟩
  · exact (mem_cellsRC _).2 ⟨hrb, hcb⟩
  · exact (mem_cellsRC _).2 ⟨hrc, hcc⟩
  · intro he
    have h1 : ra = rb ∧ ca = cb := by
      have := congrArg Prod.fst he
      have := congrArg Prod.snd he
      exact ⟨by assumption, by assumption⟩
    omega
  · intro he
    have h1 : ra = rc2 ∧ ca = cc := ⟨congrArg Prod.fst he, congrArg Prod.snd he⟩
    omega
  · intro he
    have h1 : rb = rc2 ∧ cb = cc := ⟨congrArg Prod.fst he, congrArg Prod.snd he⟩
    omega
  · rw [decide_eq_true_eq]; exact ⟨hane, habot⟩
  · rw [decide_eq_true_eq]; exact ⟨hbne, hbbot⟩
  · rw [decide_eq_true_eq]; exact ⟨hcne, hcbot⟩



/-- C9: on every board snapshot where the side to move has a playable
column whose move completes four-in-a-row for it, getBotMoveHard returns
such a winning column — for any time oracle. -/
theorem getBotMoveHard_takes_immediate_win (b : Board) (bot opponent : Char)
    (oracle : Nat → Bool)
    (hwin : ∃ c, c < 7 ∧ can_play (loadPos b bot) c = true ∧
        has_won_bb (opponent_bb (make_move (loadPos b bot) c)) = true) :
    ∃ c, c < 7 ∧ can_play (loadPos b bot) c = true ∧
      has_won_bb (opponent_bb (make_move (loadPos b bot) c)) = true ∧
      getBotMoveHard b bot opponent oracle = c + 1 := by
  obtain ⟨c0, hc0, hcp0, hw0⟩ := hwin
  have hsome : (List.find? (fun c => can_play (loadPos b bot) c &&
      has_won_bb (opponent_bb (make_move (loadPos b bot) c))) (List.range 7)).isSome := by
    rw [List.find?_isSome]
    exact ⟨c0, List.mem_range.2 hc0, by rw [hcp0, hw0]; rfl⟩
  obtain ⟨cw, hcw⟩ := Option.isSome_iff_exists.1 hsome
  have hcwmem : cw ∈ List.range 7 := List.mem_of_find?_eq_some hcw
  have hcwpred := List.find?_some hcw
  rw [Bool.and_eq_true] at hcwpred
  have hbook : opening_book_move b bot = 0 :=
    opening_book_move_eq_zero b bot (my_stones_ge_three b bot c0 hc0 hcp0 hw0)
  refine ⟨cw, List.mem_range.1 hcwmem, hcwpred.1, hcwpred.2, ?_⟩
  unfold getBotMoveHard getBotMoveHardImpl
  dsimp only
  rw [hbook]
  rw [if_neg (by rintro ⟨h1, -⟩; omega)]
  rw [hcw]

/-- Witness for C9 at the claim's scenario: mover X holds the bottom row
of columns 1-3 (1-indexed); the engine answers column 4. -/
theorem getBotMoveHard_takes_immediate_win_witness :
    (∃ c, c < 7 ∧ can_play (loadPos bC9 'X') c = true ∧
        has_won_bb (opponent_bb (make_move (loadPos bC9 'X') c)) = true) ∧
    (∃ c, c < 7 ∧ can_play (loadPos bC9 'X') c = true ∧
        has_won_bb (opponent_bb (make_move (loadPos bC9 'X') c)) = true ∧
        getBotMoveHard bC9 'X' 'O' neverTO = c + 1) ∧
    getBotMoveHard bC9 'X' 'O' neverTO = 4 :=
  ⟨⟨3, by omega, by decide, by decide⟩,
   getBotMoveHard_takes_immediate_win bC9 'X' 'O' neverTO
     ⟨3, by omega, by decide, by decide⟩,
   by decide⟩

/-! ### Claim C1: a playable column is always returned -/

/-- C1: on every board snapshot with at least one playable column (top
cell empty), getBotMoveHard returns a column number n with 1 <= n <= 7
whose top cell is empty — whatever the board contents and however the
search unfolded (any time oracle). -/
theorem getBotMoveHard_returns_playable (b : Board) (bot opponent : Char)
    (oracle : Nat → Bool) (hplayable : ∃ c, c < 7 ∧ b 0 c = '.') :
    1 ≤ getBotMoveHard b bot opponent oracle ∧
    getBotMoveHard b bot opponent oracle ≤ 7 ∧
    b 0 (getBotMoveHard b bot opponent oracle - 1) = '.' := by
  unfold getBotMoveHard getBotMoveHardImpl
  dsimp only
  split
  · next hb => exact ⟨hb.1, hb.2.1, by simpa using hb.2.2⟩
  · split
    · next c heq =>
      have hmem := List.mem_of_find?_eq_some heq
      have hpred := List.find?_some heq
      rw [Bool.and_eq_true] at hpred
      have hc : c < 7 := List.mem_range.1 hmem
      have hdot : b 0 c = '.' := (can_play_loadPos b bot c hc).1 hpred.1
      exact ⟨by omega, by omega, by simpa using hdot⟩
    · split
      · next c heq =>
        have hmem := List.mem_of_find?_eq_some heq
        have hpred := List.find?_some heq
        rw [Bool.and_eq_true] at hpred
        have hc : c < 7 := List.mem_range.1 hmem
        have hdot : b 0 c = '.' := (can_play_loadPos b bot c hc).1 hpred.1
        exact ⟨by omega, by omega, by simpa using hdot⟩
      · split
        · -- safety check triggered
          split
          · next c heq =>
            have hmem := List.mem_of_find?_eq_some heq
            have hpred := List.find?_some heq
            have hc : c < 7 := List.mem_range.1 hmem
            have hdot : b 0 c = '.' := (can_play_loadPos b bot c hc).1 hpred
            exact ⟨(by omega : 1 ≤ c + 1), (by omega : c + 1 ≤ 7),
              (by simpa using hdot : b 0 (c + 1 - 1) = '.')⟩
          · next heq =>
            exfalso
            obtain ⟨c0, hc0, hd0⟩ := hplayable
            have : (List.find? (fun c => can_play (loadPos b bot) c) (List.range 7)).isSome := by
              rw [List.find?_isSome]
              exact ⟨c0, List.mem_range.2 hc0, (can_play_loadPos b bot c0 hc0).2 hd0⟩
            rw [heq] at this
            exact Bool.noConfusion this
        · next hsafe =>
          push_neg at hsafe
          exact ⟨by omega, by omega, hsafe.2.2⟩

/-- Witness for C1 at the empty board with an unbounded time budget. -/
theorem getBotMoveHard_returns_playable_witness :
    (∃ c, c < 7 ∧ emptyB 0 c = '.') ∧
    (1 ≤ getBotMoveHard emptyB 'X' 'O' neverTO ∧
     getBotMoveHard emptyB 'X' 'O' neverTO ≤ 7 ∧
     emptyB 0 (getBotMoveHard emptyB 'X' 'O' neverTO - 1) = '.') :=
  ⟨⟨0, by omega, rfl⟩,
   getBotMoveHard_returns_playable emptyB 'X' 'O' neverTO ⟨0, by omega, rfl⟩⟩

/-! ### Claim C6: terminal scores dominate the evaluator -/

theorem eval_window_abs_le (p : Position) (r c : Nat) (dr dc : Int)
    (h1 : (window_counts p r c dr dc).1 ≤ 3)
    (h2 : (window_counts p r c dr dc).2 ≤ 3) :
    |eval_window p r c dr dc| ≤ 60 := by
  unfold eval_window
  dsimp only
  split_ifs with ha hb hc2
  · simp
  · have h0 : (window_counts p r c dr dc).1 ≤ 3 := h1
    interval_cases h : (window_counts p r c dr dc).1 <;> simp [Wlist]
  · have h0 : (window_counts p r c dr dc).2 ≤ 3 := h2
    interval_cases h : (window_counts p r c dr dc).2 <;> simp [Wlist]
  · simp

theorem cell_at_abs_le (p : Position) (r c : Nat) : |cell_at p r c| ≤ 1 := by
  unfold cell_at
  dsimp only
  split_ifs <;> simp

theorem abs_map_sum_le {α : Type} (l : List α) (f : α → Int) (B : Int)
    (h : ∀ x ∈ l, |f x| ≤ B) :
    |(l.map f).sum| ≤ l.length * B := by
  induction l with
  | nil => simp
  | cons hd tl ih =>
    simp only [List.map_cons, List.sum_cons, List.length_cons]
    calc |f hd + (tl.map f).sum| ≤ |f hd| + |(tl.map f).sum| := abs_add _ _
      _ ≤ B + tl.length * B :=
        add_le_add (h hd (List.mem_cons_self hd tl)) (ih fun x hx => h x (List.mem_cons_of_mem hd hx))
      _ = (tl.length + 1) * B := by ring

theorem evaluate_abs_le (p : Position) (h : noFourWindows p) :
    |evaluate_position_internal p false| ≤ 4164 := by
  obtain ⟨hH, hV, hD1, hD2⟩ := h
  unfold evaluate_position_internal
  dsimp only
  rw [if_neg (by exact Bool.noConfusion)]
  have hcenter : |((List.range 6).map fun r => cell_at p r 3 * 4).sum| ≤ 24 := by
    have := abs_map_sum_le (List.range 6) (fun r => cell_at p r 3 * 4) 4
      (fun x hx => by
        rw [abs_mul]
        have := cell_at_abs_le p x 3
        have h4 : |(4 : Int)| = 4 := by decide
        rw [h4]
        nlinarith)
    simpa using this
  have hh : |(winH.map fun rc => eval_window p rc.1 rc.2 0 1).sum| ≤ 1440 := by
    have := abs_map_sum_le winH (fun rc => eval_window p rc.1 rc.2 0 1) 60
      (fun x hx => eval_window_abs_le p x.1 x.2 0 1 (hH x hx).1 (hH x hx).2)
    simpa using this
  have hv : |(winV.map fun rc => eval_window p rc.1 rc.2 1 0).sum| ≤ 1260 := by
    have := abs_map_sum_le winV (fun rc => eval_window p rc.1 rc.2 1 0) 60
      (fun x hx => eval_window_abs_le p x.1 x.2 1 0 (hV x hx).1 (hV x hx).2)
    simpa using this
  have hd1 : |(winD1.map fun rc => eval_window p rc.1 rc.2 1 1).sum| ≤ 720 := by
    have := abs_map_sum_le winD1 (fun rc => eval_window p rc.1 rc.2 1 1) 60
      (fun x hx => eval_window_abs_le p x.1 x.2 1 1 (hD1 x hx).1 (hD1 x hx).2)
    simpa using this
  have hd2 : |(winD2.map fun rc => eval_window p rc.1 rc.2 1 (-1)).sum| ≤ 720 := by
    have := abs_map_sum_le winD2 (fun rc => eval_window p rc.1 rc.2 1 (-1)) 60
      (fun x hx => eval_window_abs_le p x.1 x.2 1 (-1) (hD2 x hx).1 (hD2 x hx).2)
    simpa using this
  calc |((List.range 6).map fun r => cell_at p r 3 * 4).sum +
        (winH.map fun rc => eval_window p rc.1 rc.2 0 1).sum +
        (winV.map fun rc => eval_window p rc.1 rc.2 1 0).sum +
        (winD1.map fun rc => eval_window p rc.1 rc.2 1 1).sum +
        (winD2.map fun rc => eval_window p rc.1 rc.2 1 (-1)).sum|
      ≤ |((List.range 6).map fun r => cell_at p r 3 * 4).sum +
        (winH.map fun rc => eval_window p rc.1 rc.2 0 1).sum +
        (winV.map fun rc => eval_window p rc.1 rc.2 1 0).sum +
        (winD1.map fun rc => eval_window p rc.1 rc.2 1 1).sum| +
        |(winD2.map fun rc => eval_window p rc.1 rc.2 1 (-1)).sum| := abs_add _ _
    _ ≤ (|((List.range 6).map fun r => cell_at p r 3 * 4).sum +
        (winH.map fun rc => eval_window p rc.1 rc.2 0 1).sum +
        (winV.map fun rc => eval_window p rc.1 rc.2 1 0).sum| +
        |(winD1.map fun rc => eval_window p rc.1 rc.2 1 1).sum|) +
        |(winD2.map fun rc => eval_window p rc.1 rc.2 1 (-1)).sum| :=
        add_le_add_right (abs_add _ _) _
    _ ≤ ((|((List.range 6).map fun r => cell_at p r 3 * 4).sum +
        (winH.map fun rc => eval_window p rc.1 rc.2 0 1).sum| +
        |(winV.map fun rc => eval_window p rc.1 rc.2 1 0).sum|) +
        |(winD1.map fun rc => eval_window p rc.1 rc.2 1 1).sum|) +
        |(winD2.map fun rc => eval_window p rc.1 rc.2 1 (-1)).sum| :=
        add_le_add_right (add_le_add_right (abs_add _ _) _) _
    _ ≤ (((|((List.range 6).map fun r => cell_at p r 3 * 4).sum| +
        |(winH.map fun rc => eval_window p rc.1 rc.2 0 1).sum|) +
        |(winV.map fun rc => eval_window p rc.1 rc.2 1 0).sum|) +
        |(winD1.map fun rc => eval_window p rc.1 rc.2 1 1).sum|) +
        |(winD2.map fun rc => eval_window p rc.1 rc.2 1 (-1)).sum| :=
        add_le_add_right (add_le_add_right (add_le_add_right (abs_add _ _) _) _) _
    _ ≤ 4164 := by omega

/-- C6: the terminal scores used by negamax are strictly monotone in the
detection ply — a win at ply k scores strictly above a win at ply k+2,
a loss at ply k strictly below a loss at ply k+2 — and every terminal
score within the 42-ply game dominates, in absolute value, every output
of the heuristic evaluator on positions where the evaluator is defined
(no window fully owned by one side). -/
theorem terminal_scores_monotone_dominate (k : Nat) (p : Position)
    (hk : k ≤ 42) (h : noFourWindows p) :
    terminal_win_score k > terminal_win_score (k + 2) ∧
    terminal_loss_score k < terminal_loss_score (k + 2) ∧
    |evaluate_position_internal p false| < |terminal_win_score k| ∧
    |evaluate_position_internal p false| < |terminal_loss_score k| := by
  have hev := evaluate_abs_le p h
  have hw : terminal_win_score k = WIN_SCORE - (k : Int) := rfl
  have hl : terminal_loss_score k = - WIN_SCORE + (k : Int) := rfl
  have habs1 : |terminal_win_score k| = WIN_SCORE - (k : Int) := by
    rw [hw]
    apply abs_of_nonneg
    unfold WIN_SCORE
    omega
  have habs2 : |terminal_loss_score k| = WIN_SCORE - (k : Int) := by
    rw [hl]
    rw [abs_of_nonpos (by unfold WIN_SCORE; omega)]
    ring
  refine ⟨?_, ?_, ?_, ?_⟩
  · unfold terminal_win_score; omega
  · unfold terminal_loss_score; omega
  · rw [habs1]; unfold WIN_SCORE; omega
  · rw [habs2]; unfold WIN_SCORE; omega

/-- Witness for C6 at ply 0 and the empty position. -/
theorem terminal_scores_monotone_dominate_witness :
    ((0 : Nat) ≤ 42 ∧ noFourWindows ⟨0, 0⟩) ∧
    (terminal_win_score 0 > terminal_win_score 2 ∧
     terminal_loss_score 0 < terminal_loss_score 2 ∧
     |evaluate_position_internal ⟨0, 0⟩ false| < |terminal_win_score 0| ∧
     |evaluate_position_internal ⟨0, 0⟩ false| < |terminal_loss_score 0|) :=
  ⟨⟨by omega, by refine ⟨?_, ?_, ?_, ?_⟩ <;> decide⟩,
   terminal_scores_monotone_dominate 0 ⟨0, 0⟩ (by omega)
     (by refine ⟨?_, ?_, ?_, ?_⟩ <;> decide)⟩

/-! ### Claim C2: has_won_bb agrees with the reference scanner -/

theorem in_bounds_true (r c : Nat) (hr : r < 6) (hc : c < 7) :
    in_bounds (r : Int) (c : Int) = true := by
  unfold in_bounds
  rw [decide_eq_true_eq]
  refine ⟨by omega, by omega, by omega, by omega⟩

theorem boardOfBB_eq_one (bb : Nat) (r c : Nat) (hr : r < 6) (hc : c < 7) :
    (boardOfBB bb (r : Int) (c : Int) = 1) ↔ bb.testBit (c * 7 + r) = true := by
  unfold boardOfBB
  have hrn : ((r : Int)).toNat = r := Int.toNat_natCast r
  have hcn : ((c : Int)).toNat = c := Int.toNat_natCast c
  rw [hrn, hcn]
  split_ifs with h
  · exact ⟨fun _ => h.2.2.2.2, fun _ => rfl⟩
  · constructor
    · intro h01; exact absurd h01 (by omega)
    · intro hbit
      exact absurd ⟨by omega, by omega, by omega, by omega, hbit⟩ h

theorem bit_decomp (bb i : Nat) (hrange : bb < 2 ^ 49)
    (hsent : ∀ c, c < 7 → bb.testBit (c * 7 + 6) = false)
    (hi : bb.testBit i = true) :
    i < 49 ∧ i % 7 ≤ 5 := by
  have hlt : i < 49 := by
    by_contra h
    push_neg at h
    have : bb < 2 ^ i := lt_of_lt_of_le hrange (Nat.pow_le_pow_right (by omega) h)
    rw [Nat.testBit_lt_two_pow this] at hi
    exact Bool.noConfusion hi
  refine ⟨hlt, ?_⟩
  by_contra h
  push_neg at h
  have h6 : i % 7 = 6 := by omega
  have hs := hsent (i / 7) (by omega)
  rw [show (i / 7) * 7 + 6 = i from by omega] at hs
  rw [hi] at hs
  exact Bool.noConfusion hs

theorem count_line_ge_four (bd : IBoard) (p : Int) (r c dr dc : Int)
    (h : ∀ t : Nat, t < 4 →
      in_bounds (r + t * dr) (c + t * dc) = true ∧ bd (r + t * dr) (c + t * dc) = p) :
    4 ≤ count_line bd p 13 r c dr dc := by
  have g0 := h 0 (by omega)
  have g1 := h 1 (by omega)
  have g2 := h 2 (by omega)
  have g3 := h 3 (by omega)
  simp only [Nat.cast_ofNat, Nat.cast_one, Nat.cast_zero, zero_mul, one_mul, add_zero] at g0 g1 g2 g3
  have g2h : in_bounds (r + dr + dr) (c + dc + dc) = true ∧ bd (r + dr + dr) (c + dc + dc) = p := by
    rw [show r + dr + dr = r + 2 * dr from by ring, show c + dc + dc = c + 2 * dc from by ring]
    exact g2
  have g3h : in_bounds (r + dr + dr + dr) (c + dc + dc + dc) = true ∧
      bd (r + dr + dr + dr) (c + dc + dc + dc) = p := by
    rw [show r + dr + dr + dr = r + 3 * dr from by ring,
        show c + dc + dc + dc = c + 3 * dc from by ring]
    exact g3
  rw [count_line, if_pos ⟨g0.1, g0.2⟩]
  rw [count_line, if_pos ⟨g1.1, g1.2⟩]
  rw [count_line, if_pos ⟨g2h.1, g2h.2⟩]
  rw [count_line, if_pos ⟨g3h.1, g3h.2⟩]
  omega

theorem count_line_cells (bd : IBoard) (p : Int) :
    ∀ (fuel : Nat) (r c dr dc : Int) (t : Nat),
      t < count_line bd p fuel r c dr dc →
      in_bounds (r + t * dr) (c + t * dc) = true ∧ bd (r + t * dr) (c + t * dc) = p := by
  intro fuel
  induction fuel with
  | zero => intro r c dr dc t ht; rw [count_line] at ht; omega
  | succ n ih =>
    intro r c dr dc t ht
    rw [count_line] at ht
    split_ifs at ht with hg
    · match t with
      | 0 => simpa using hg
      | t' + 1 =>
        have := ih (r + dr) (c + dc) dr dc t' (by omega)
        constructor
        · rw [show r + (t' + 1 : Nat) * dr = r + dr + t' * dr from by push_cast; ring,
             show c + (t' + 1 : Nat) * dc = c + dc + t' * dc from by push_cast; ring]
          exact this.1
        · rw [show r + (t' + 1 : Nat) * dr = r + dr + t' * dr from by push_cast; ring,
             show c + (t' + 1 : Nat) * dc = c + dc + t' * dc from by push_cast; ring]
          exact this.2
    · omega



theorem check_win_from_cells (bb : Nat) (r0 c0 : Nat) (dr dc : Int)
    (hd : (dr, dc) ∈ winDirs) (hr : r0 < 6) (hc : c0 < 7)
    (hcells : ∀ t : Nat, t < 4 → ∃ rt ct : Nat, rt < 6 ∧ ct < 7 ∧
      ((rt : Int) = (r0 : Int) + (t : Int) * dr) ∧
      ((ct : Int) = (c0 : Int) + (t : Int) * dc) ∧
      bb.testBit (ct * 7 + rt) = true) :
    check_win (boardOfBB bb) 1 = true := by
  unfold check_win
  rw [List.any_eq_true]
  refine ⟨r0, List.mem_range.2 hr, ?_⟩
  rw [List.any_eq_true]
  refine ⟨c0, List.mem_range.2 hc, ?_⟩
  rw [Bool.and_eq_true]
  constructor
  · rw [beq_iff_eq]
    obtain ⟨rt, ct, hb1, hb2, he1, he2, hbit⟩ := hcells 0 (by omega)
    have hrt : rt = r0 := by push_cast at he1; omega
    have hct : ct = c0 := by push_cast at he2; omega
    subst hrt; subst hct
    exact (boardOfBB_eq_one bb rt ct hb1 hb2).2 hbit
  · rw [List.any_eq_true]
    refine ⟨(dr, dc), hd, ?_⟩
    dsimp only
    rw [decide_eq_true_eq]
    have hf : 4 ≤ count_line (boardOfBB bb) 1 13 (r0 : Int) (c0 : Int) dr dc := by
      apply count_line_ge_four
      intro t ht
      obtain ⟨rt, ct, hb1, hb2, he1, he2, hbit⟩ := hcells t ht
      rw [← he1, ← he2]
      exact ⟨in_bounds_true rt ct hb1 hb2, (boardOfBB_eq_one bb rt ct hb1 hb2).2 hbit⟩
    omega

theorem check_win_of_bitline (bb s i : Nat) (hrange : bb < 2 ^ 49)
    (hsent : ∀ c, c < 7 → bb.testBit (c * 7 + 6) = false)
    (hsor : s = 1 ∨ s = 7 ∨ s = 6 ∨ s = 8)
    (h0 : bb.testBit i = true) (h1 : bb.testBit (i + s) = true)
    (h2 : bb.testBit (i + 2 * s) = true) (h3 : bb.testBit (i + 3 * s) = true) :
    check_win (boardOfBB bb) 1 = true := by
  have d0 := bit_decomp bb i hrange hsent h0
  have d1 := bit_decomp bb (i + s) hrange hsent h1
  have d2 := bit_decomp bb (i + 2 * s) hrange hsent h2
  have d3 := bit_decomp bb (i + 3 * s) hrange hsent h3
  rcases hsor with rfl | rfl | rfl | rfl
  · -- vertical: stride 1, direction (1, 0)
    apply check_win_from_cells bb (i % 7) (i / 7) 1 0 (by simp [winDirs]) (by omega) (by omega)
    intro t ht
    refine ⟨i % 7 + t, i / 7, by omega, by omega, by push_cast; ring, by push_cast; ring, ?_⟩
    rw [show i / 7 * 7 + (i % 7 + t) = i + t from by omega]
    interval_cases t
    · exact h0
    · simpa using h1
    · simpa using h2
    · simpa using h3
  · -- horizontal: stride 7, direction (0, 1)
    apply check_win_from_cells bb (i % 7) (i / 7) 0 1 (by simp [winDirs]) (by omega) (by omega)
    intro t ht
    refine ⟨i % 7, i / 7 + t, by omega, by omega, by push_cast; ring, by push_cast; ring, ?_⟩
    rw [show (i / 7 + t) * 7 + i % 7 = i + t * 7 from by omega]
    interval_cases t
    · simpa using h0
    · simpa using h1
    · simpa using h2
    · simpa using h3
  · -- anti-diagonal: stride 6, direction (1, -1) starting from the high-row end
    apply check_win_from_cells bb (i % 7 - 3) (i / 7 + 3) 1 (-1) (by simp [winDirs])
      (by omega) (by omega)
    intro t ht
    refine ⟨i % 7 - 3 + t, i / 7 + 3 - t, by omega, by omega, by push_cast; omega,
      by push_cast; omega, ?_⟩
    rw [show (i / 7 + 3 - t) * 7 + (i % 7 - 3 + t) = i + (3 - t) * 6 from by omega]
    interval_cases t
    · simpa using h3
    · simpa using h2
    · simpa using h1
    · simpa using h0
  · -- diagonal: stride 8, direction (1, 1)
    apply check_win_from_cells bb (i % 7) (i / 7) 1 1 (by simp [winDirs]) (by omega) (by omega)
    intro t ht
    refine ⟨i % 7 + t, i / 7 + t, by omega, by omega, by push_cast; ring, by push_cast; ring, ?_⟩
    rw [show (i / 7 + t) * 7 + (i % 7 + t) = i + t * 8 from by omega]
    interval_cases t
    · simpa using h0
    · simpa using h1
    · simpa using h2
    · simpa using h3



theorem testBit_of_boardOfBB (bb : Nat) (ri ci : Int)
    (hown : boardOfBB bb ri ci = 1) :
    ∃ rn cn : Nat, rn < 6 ∧ cn < 7 ∧ ((rn : Int) = ri) ∧ ((cn : Int) = ci) ∧
      bb.testBit (cn * 7 + rn) = true := by
  unfold boardOfBB at hown
  split_ifs at hown with h
  · exact ⟨ri.toNat, ci.toNat, by omega, by omega, by omega, by omega, h.2.2.2.2⟩
  · exact absurd hown (by omega)

theorem bitline_of_check_win (bb : Nat)
    (hcw : check_win (boardOfBB bb) 1 = true) :
    ∃ s, (s = 1 ∨ s = 7 ∨ s = 6 ∨ s = 8) ∧ ∃ i,
      bb.testBit i = true ∧ bb.testBit (i + s) = true ∧
      bb.testBit (i + 2 * s) = true ∧ bb.testBit (i + 3 * s) = true := by
  unfold check_win at hcw
  rw [List.any_eq_true] at hcw
  obtain ⟨r, hrm, hcw⟩ := hcw
  rw [List.any_eq_true] at hcw
  obtain ⟨c, hcm, hcw⟩ := hcw
  rw [Bool.and_eq_true] at hcw
  obtain ⟨hown, hdir⟩ := hcw
  rw [List.any_eq_true] at hdir
  obtain ⟨d, hdm, hfb⟩ := hdir
  dsimp only at hfb
  rw [decide_eq_true_eq] at hfb
  rw [beq_iff_eq] at hown
  have hr6 : r < 6 := List.mem_range.1 hrm
  have hc7 : c < 7 := List.mem_range.1 hcm
  have hbk1 : 1 ≤ count_line (boardOfBB bb) 1 13 (r : Int) (c : Int) (-d.1) (-d.2) := by
    have h13 : (13 : Nat) = 12 + 1 := rfl
    rw [h13, count_line]
    rw [if_pos ⟨in_bounds_true r c hr6 hc7, hown⟩]
    omega
  set f := count_line (boardOfBB bb) 1 13 (r : Int) (c : Int) d.1 d.2 with hfdef
  set bk := count_line (boardOfBB bb) 1 13 (r : Int) (c : Int) (-d.1) (-d.2) with hbkdef
  have hcell : ∀ j : Nat, j < 4 →
      boardOfBB bb ((r : Int) + ((j : Int) + 1 - (bk : Int)) * d.1)
        ((c : Int) + ((j : Int) + 1 - (bk : Int)) * d.2) = 1 := by
    intro j hj
    by_cases hcase : (j : Int) + 1 - (bk : Int) ≤ 0
    · have ht : bk - 1 - j < bk := by omega
      have hb := count_line_cells (boardOfBB bb) 1 13 (r : Int) (c : Int)
        (-d.1) (-d.2) (bk - 1 - j) (by rw [← hbkdef]; omega)
      have hc1 : ((bk - 1 - j : Nat) : Int) = (bk : Int) - 1 - (j : Int) := by omega
      have hco1 : (r : Int) + ((bk - 1 - j : Nat) : Int) * (-d.1) =
          (r : Int) + ((j : Int) + 1 - (bk : Int)) * d.1 := by rw [hc1]; ring
      have hco2 : (c : Int) + ((bk - 1 - j : Nat) : Int) * (-d.2) =
          (c : Int) + ((j : Int) + 1 - (bk : Int)) * d.2 := by rw [hc1]; ring
      rw [hco1, hco2] at hb
      exact hb.2
    · push_neg at hcase
      have ht : j + 1 - bk < f := by omega
      have hb := count_line_cells (boardOfBB bb) 1 13 (r : Int) (c : Int)
        d.1 d.2 (j + 1 - bk) (by rw [← hfdef]; omega)
      have hc1 : ((j + 1 - bk : Nat) : Int) = (j : Int) + 1 - (bk : Int) := by omega
      rw [hc1] at hb
      exact hb.2
  obtain ⟨r0, c0, hr0, hc0, he0r, he0c, hb0⟩ := testBit_of_boardOfBB bb _ _ (hcell 0 (by omega))
  obtain ⟨r1, c1, hr1, hc1b, he1r, he1c, hb1⟩ := testBit_of_boardOfBB bb _ _ (hcell 1 (by omega))
  obtain ⟨r2, c2, hr2, hc2b, he2r, he2c, hb2⟩ := testBit_of_boardOfBB bb _ _ (hcell 2 (by omega))
  obtain ⟨r3, c3, hr3, hc3b, he3r, he3c, hb3⟩ := testBit_of_boardOfBB bb _ _ (hcell 3 (by omega))
  have hdm' : d = ((0 : Int), (1 : Int)) ∨ d = (1, 0) ∨ d = (1, 1) ∨ d = (1, -1) := by
    simpa [winDirs] using hdm
  rcases hdm' with rfl | rfl | rfl | rfl
  · -- direction (0,1): same row, columns increase: stride 7
    refine ⟨7, by omega, c0 * 7 + r0, ?_, ?_, ?_, ?_⟩
    · exact hb0
    · rw [show c0 * 7 + r0 + 7 = c1 * 7 + r1 from by simp at he0r he1r he0c he1c; omega]
      exact hb1
    · rw [show c0 * 7 + r0 + 2 * 7 = c2 * 7 + r2 from by simp at he0r he2r he0c he2c; omega]
      exact hb2
    · rw [show c0 * 7 + r0 + 3 * 7 = c3 * 7 + r3 from by simp at he0r he3r he0c he3c; omega]
      exact hb3
  · -- direction (1,0): same column, rows increase: stride 1
    refine ⟨1, by omega, c0 * 7 + r0, ?_, ?_, ?_, ?_⟩
    · exact hb0
    · rw [show c0 * 7 + r0 + 1 = c1 * 7 + r1 from by simp at he0r he1r he0c he1c; omega]
      exact hb1
    · rw [show c0 * 7 + r0 + 2 * 1 = c2 * 7 + r2 from by simp at he0r he2r he0c he2c; omega]
      exact hb2
    · rw [show c0 * 7 + r0 + 3 * 1 = c3 * 7 + r3 from by simp at he0r he3r he0c he3c; omega]
      exact hb3
  · -- direction (1,1): stride 8
    refine ⟨8, by omega, c0 * 7 + r0, ?_, ?_, ?_, ?_⟩
    · exact hb0
    · rw [show c0 * 7 + r0 + 8 = c1 * 7 + r1 from by simp at he0r he1r he0c he1c; omega]
      exact hb1
    · rw [show c0 * 7 + r0 + 2 * 8 = c2 * 7 + r2 from by simp at he0r he2r he0c he2c; omega]
      exact hb2
    · rw [show c0 * 7 + r0 + 3 * 8 = c3 * 7 + r3 from by simp at he0r he3r he0c he3c; omega]
      exact hb3
  · -- direction (1,-1): rows increase, columns decrease: stride 6 from the last cell
    refine ⟨6, by omega, c3 * 7 + r3, ?_, ?_, ?_, ?_⟩
    · exact hb3
    · rw [show c3 * 7 + r3 + 6 = c2 * 7 + r2 from by simp at he2r he3r he2c he3c; omega]
      exact hb2
    · rw [show c3 * 7 + r3 + 2 * 6 = c1 * 7 + r1 from by simp at he1r he3r he1c he3c; omega]
      exact hb1
    · rw [show c3 * 7 + r3 + 3 * 6 = c0 * 7 + r0 from by simp at he0r he3r he0c he3c; omega]
      exact hb0



/-- C2: for every bitboard within the 7x7-bit layout whose sentinel bits
are clear and whose columns are stackable (contiguity hypothesis, not
actually needed by the proof), the shift-and-AND detector has_won_bb
answers true exactly when the literal per-cell scanner check_win of
rules.c finds four same-owner cells contiguous in a horizontal,
vertical or diagonal line among the same stones. -/
theorem has_won_bb_iff_check_win (bb : Nat)
    (hrange : bb < 2 ^ 49)
    (hsent : ∀ c, c < 7 → bb.testBit (c * 7 + 6) = false)
    (hcontig : ∀ c, c < 7 → ∀ r, r < 5 →
      bb.testBit (c * 7 + r + 1) = true → bb.testBit (c * 7 + r) = true) :
    has_won_bb bb = true ↔ check_win (boardOfBB bb) 1 = true := by
  rw [has_won_bb_iff]
  constructor
  · rintro ⟨s, hsor, i, h0, h1, h2, h3⟩
    exact check_win_of_bitline bb s i hrange hsent hsor h0 h1 h2 h3
  · intro hcw
    exact bitline_of_check_win bb hcw

/-- Witness for C2 at the bitboard 15 (a vertical four in column 0). -/
theorem has_won_bb_iff_check_win_witness :
    ((15 : Nat) < 2 ^ 49 ∧
     (∀ c, c < 7 → Nat.testBit 15 (c * 7 + 6) = false) ∧
     (∀ c, c < 7 → ∀ r, r < 5 →
       Nat.testBit 15 (c * 7 + r + 1) = true → Nat.testBit 15 (c * 7 + r) = true)) ∧
    (has_won_bb 15 = true ↔ check_win (boardOfBB 15) 1 = true) ∧
    has_won_bb 15 = true :=
  ⟨⟨by decide, by decide, by decide⟩,
   has_won_bb_iff_check_win 15 (by decide) (by decide) (by decide),
   by decide⟩

end C4Bot
